import Mathlib

/-!
# WordCounter-Go: the frequency tracker of `wordcounter/word_counter.go`

A shallow embedding of the `wordCounter` type and its methods and of the handler
`wordsHandler` of `httpserver/http_server.go`, followed by the invariants of the
structure and the properties of its three queries.

Modelling conventions.

* A Go `map[K]V` is an association list with at most one entry per key; only
  lookups, stores, deletes and `len` are used, so iteration order never matters.
* `container/list` is a list of elements, front to back.  An `*Element` is the pair
  of its heap address and its `Value` (the program never assigns `Value` after the
  element is created); whether the element is still linked, and what follows it, is
  read from the list.  Addresses come from an allocation counter kept with the list.
* A run-time panic (nil dereference, index out of range) is an `Except.error`.
* Go's `int` is modelled as an unbounded integer: a count only grows by one per
  call, so wrap-around would need 2^63 calls.
* Strings are sequences of Unicode code points.
* Handlers are modelled one request at a time: the mutex of `HttpServer` only serialises
  them.
-/

namespace WordCounter

/-! ## Go library primitives -/

/-- White space in the sense of Go's `unicode.IsSpace`. -/
def isSpace (c : Char) : Bool :=
  (0x09 ≤ c.toNat && c.toNat ≤ 0x0d) || c.toNat == 0x20 || c.toNat == 0x85 ||
  c.toNat == 0xa0 || c.toNat == 0x1680 || (0x2000 ≤ c.toNat && c.toNat ≤ 0x200a) ||
  c.toNat == 0x2028 || c.toNat == 0x2029 || c.toNat == 0x202f || c.toNat == 0x205f ||
  c.toNat == 0x3000

/-- Go's `strings.TrimSpace`: drop leading, then trailing, white space. -/
def TrimSpace (s : String) : String :=
  ⟨List.rdropWhile isSpace (List.dropWhile isSpace s.data)⟩

/-- Lookup `m[k]` with the comma-ok result. -/
def mapLookup {κ ν : Type} [DecidableEq κ] : List (κ × ν) → κ → Option ν
  | [], _ => none
  | (k', v) :: m, k => if k' = k then some v else mapLookup m k

/-- Store `m[k] = v`. -/
def mapStore {κ ν : Type} [DecidableEq κ] : List (κ × ν) → κ → ν → List (κ × ν)
  | [], k, v => [(k, v)]
  | (k', v') :: m, k, v => if k' = k then (k, v) :: m else (k', v') :: mapStore m k v

/-- Builtin `delete(m, k)`. -/
def mapDelete {κ ν : Type} [DecidableEq κ] (m : List (κ × ν)) (k : κ) : List (κ × ν) :=
  m.filter (fun p => decide (p.1 ≠ k))

/-- Builtin `len(m)`. -/
def mapLen {κ ν : Type} (m : List (κ × ν)) : Int := (m.length : Int)

/-- A list element as seen through a pointer: its address and its `Value`. -/
structure Element where
  addr : Nat
  Value : Int
deriving DecidableEq

/-- A `container/list` list: the linked elements front to back, and the next free address. -/
structure LinkedList where
  elems : List Element
  alloc : Nat

/-- Run-time faults of the embedded program. -/
inductive Fault where
  | nilDeref
  | indexOutOfRange
  | fuel
deriving DecidableEq

namespace LinkedList

/-- Go: `list.New()`. -/
def New : LinkedList := ⟨[], 0⟩

/-- Go: `l.Len()`. -/
def Len (l : LinkedList) : Int := (l.elems.length : Int)

/-- Go: `l.Front()`. -/
def Front (l : LinkedList) : Option Element := l.elems.head?

/-- Whether the element at address `a` is linked in the list (`e.list == l`). -/
def linked (l : LinkedList) (a : Nat) : Bool := l.elems.any (fun x => decide (x.addr = a))

/-- Go: `l.PushFront(v)`. -/
def PushFront (l : LinkedList) (v : Int) : LinkedList × Element :=
  (⟨⟨l.alloc, v⟩ :: l.elems, l.alloc + 1⟩, ⟨l.alloc, v⟩)

/-- Splice `e` right after the element at address `a`. -/
def spliceAfter (e : Element) (a : Nat) : List Element → List Element
  | [] => []
  | x :: xs => if x.addr = a then x :: e :: xs else x :: spliceAfter e a xs

/-- Go: `l.InsertAfter(v, mark)` for a non-nil `mark`; the result is nil when `mark` is not
an element of `l`. -/
def InsertAfter (l : LinkedList) (v : Int) (mark : Element) : LinkedList × Option Element :=
  if l.linked mark.addr then
    (⟨spliceAfter ⟨l.alloc, v⟩ mark.addr l.elems, l.alloc + 1⟩, some ⟨l.alloc, v⟩)
  else (l, none)

/-- Go: `l.Remove(e)` for a non-nil `e`; nothing happens when `e` is not an element of `l`. -/
def Remove (l : LinkedList) (e : Element) : LinkedList :=
  ⟨l.elems.filter (fun x => decide (x.addr ≠ e.addr)), l.alloc⟩

/-- The element that follows the one at address `a`. -/
def nextOf (a : Nat) : List Element → Option Element
  | [] => none
  | x :: xs => if x.addr = a then xs.head? else nextOf a xs

/-- Go: `e.Next()` for a non-nil `e`; nil for the last element and for an unlinked one. -/
def Next (l : LinkedList) (e : Element) : Option Element := nextOf e.addr l.elems

end LinkedList

/-! ## The data model -/

/-- Go: `type Marker struct`. -/
structure Marker where
  position : Option Element
  batchSize : Int
deriving DecidableEq

/-- Go: `type wordCounter struct`. -/
structure wordCounter where
  wordsHistogram : List (String × Int)
  sortedFrequencies : LinkedList
  markers : List (Int × Marker)
  top5 : Fin 5 → String

/-- Go: `New()`; the array `top5` starts as five empty strings. -/
def New : wordCounter :=
  { wordsHistogram := [], sortedFrequencies := LinkedList.New, markers := [],
    top5 := fun _ => "" }

/-- The read `wc.wordsHistogram[w]`, zero for a missing key. -/
def histGet (wc : wordCounter) (w : String) : Int := (mapLookup wc.wordsHistogram w).getD 0

/-! ## updateTop5 -/

/-- The three loop variables of `updateTop5`. -/
structure Top5Scan where
  curWordIdx : Nat
  minWordIdx : Nat
  minWordFreq : Int
deriving DecidableEq

/-- One iteration of the loop of `updateTop5`. -/
def top5Step (wc : wordCounter) (word : String) (st : Top5Scan) (i : Fin 5) : Top5Scan :=
  let st1 : Top5Scan := if wc.top5 i = word then { st with curWordIdx := i.val } else st
  let iWordFreq := histGet wc (wc.top5 i)
  if st1.minWordIdx = 5 ∨ iWordFreq < st1.minWordFreq then
    { st1 with minWordIdx := i.val, minWordFreq := iWordFreq }
  else st1

/-- The loop of `updateTop5`, for `i` from 0 to 4. -/
def top5Scan (wc : wordCounter) (word : String) : Top5Scan :=
  List.foldl (top5Step wc word) ⟨5, 5, 0⟩ (List.finRange 5)

/-- Go: `updateTop5`. -/
def updateTop5 (wc : wordCounter) (word : String) (frequency : Int) : Except Fault wordCounter :=
  let st := top5Scan wc word
  if st.curWordIdx = 5 ∧ frequency > st.minWordFreq then
    if h : st.minWordIdx < 5 then
      .ok { wc with top5 := Function.update wc.top5 ⟨st.minWordIdx, h⟩ word }
    else .error .indexOutOfRange
  else .ok wc

/-! ## addFrequency and updateMarkers -/

/-- Go: `addFrequency`. -/
def addFrequency (wc : wordCounter) (frequency : Int) : Except Fault wordCounter :=
  if frequency = 1 then
    let r := wc.sortedFrequencies.PushFront frequency
    .ok { wc with sortedFrequencies := r.1,
                  markers := mapStore wc.markers frequency ⟨some r.2, 1⟩ }
  else
    match mapLookup wc.markers (frequency - 1) with
    | none => .error .nilDeref
    | some prevMarker =>
      match prevMarker.position with
      | none => .error .nilDeref
      | some mark =>
        let r := wc.sortedFrequencies.InsertAfter frequency mark
        .ok { wc with sortedFrequencies := r.1,
                      markers := mapStore wc.markers frequency ⟨r.2, 1⟩ }

/-- The second half of `updateMarkers`: shrink or drop the marker of the previous frequency. -/
def releasePrev (wc : wordCounter) (curFreq : Int) : Except Fault wordCounter :=
  if curFreq > 1 then
    match mapLookup wc.markers (curFreq - 1) with
    | none => .error .nilDeref
    | some prevMarker =>
      if prevMarker.batchSize = 1 then
        match prevMarker.position with
        | none => .error .nilDeref
        | some pos =>
          .ok { wc with sortedFrequencies := wc.sortedFrequencies.Remove pos,
                        markers := mapDelete wc.markers (curFreq - 1) }
      else
        .ok { wc with markers := mapStore wc.markers (curFreq - 1)
                                   { prevMarker with batchSize := prevMarker.batchSize - 1 } }
  else .ok wc

/-- The first half of `updateMarkers`: add or grow the marker of the current frequency. -/
def markCurrent (wc : wordCounter) (curFreq : Int) : Except Fault wordCounter :=
  match mapLookup wc.markers curFreq with
  | none => addFrequency wc curFreq
  | some m => .ok { wc with markers := mapStore wc.markers curFreq
                                         { m with batchSize := m.batchSize + 1 } }

/-- Go: `updateMarkers`. -/
def updateMarkers (wc : wordCounter) (curFreq : Int) : Except Fault wordCounter :=
  match markCurrent wc curFreq with
  | .error f => .error f
  | .ok wc1 => releasePrev wc1 curFreq

/-! ## updateState and CountWord -/

/-- Go: `updateState`. -/
def updateState (wc : wordCounter) (word : String) (newFreq : Int) : Except Fault wordCounter :=
  match updateTop5 { wc with wordsHistogram := mapStore wc.wordsHistogram word newFreq }
      word newFreq with
  | .error f => .error f
  | .ok wc1 => updateMarkers wc1 newFreq

/-- Go: `CountWord`. -/
def CountWord (wc : wordCounter) (word : String) : Except Fault wordCounter :=
  if (TrimSpace word).length = 0 then .ok wc
  else updateState wc (TrimSpace word) (histGet wc (TrimSpace word) + 1)

/-! ## Queries -/

/-- Go: `TopFiveFrequentWords`; the loop ranges over the five slots in order. -/
def TopFiveFrequentWords (wc : wordCounter) : List (String × Int) :=
  List.foldl (fun res i =>
      if histGet wc (wc.top5 i) ≠ 0 then mapStore res (wc.top5 i) (histGet wc (wc.top5 i))
      else res)
    [] (List.finRange 5)

/-- Go: `LowestFrequency`. -/
def LowestFrequency (wc : wordCounter) : Int :=
  if wc.sortedFrequencies.Len = 0 then 0
  else match wc.sortedFrequencies.Front with
    | none => 0
    | some e => e.Value

/-- The `for idx < medianIndex` loop of `MedianFrequency`, with a bound on the number of
iterations; a nil `iter` faults at its next use, whichever branch is taken. -/
def medianLoop (wc : wordCounter) (medianIndex : Int) : Nat → Int → Element → Except Fault Int
  | 0, idx, iter => if idx < medianIndex then .error .fuel else .ok iter.Value
  | fuel + 1, idx, iter =>
    if idx < medianIndex then
      match wc.sortedFrequencies.Next iter with
      | none => .error .nilDeref
      | some nx =>
        match mapLookup wc.markers nx.Value with
        | none => .error .nilDeref
        | some marker =>
          match marker.position with
          | none => .error .nilDeref
          | some pos => medianLoop wc medianIndex fuel (idx + marker.batchSize) pos
    else .ok iter.Value

/-- Go: `MedianFrequency`, its loop bounded by `fuel` iterations. -/
def MedianFrequency (fuel : Nat) (wc : wordCounter) : Except Fault Int :=
  if wc.sortedFrequencies.Len = 0 then .ok 0
  else
    match mapLookup wc.markers (LowestFrequency wc) with
    | none => .error .nilDeref
    | some marker =>
      match marker.position with
      | none => .error .nilDeref
      | some iter =>
        medianLoop wc (Int.tdiv (mapLen wc.wordsHistogram) 2) fuel (marker.batchSize - 1) iter

/-! ## Call sequences -/

/-- Apply `CountWord` to each word in order, stopping at the first fault. -/
def countWords : wordCounter → List String → Except Fault wordCounter
  | wc, [] => .ok wc
  | wc, w :: ws =>
    match CountWord wc w with
    | .error f => .error f
    | .ok wc1 => countWords wc1 ws

/-- A state is reachable when some sequence of `CountWord` calls on `New()` produces it. -/
def Reachable (wc : wordCounter) : Prop := ∃ ws : List String, countWords New ws = .ok wc

/-! ## The HTTP server: wordsHandler -/

/-- Go: `strings.Split(s, ",")` on the code points of `s`: the pieces between the commas,
in order; a string without comma, the empty one included, is its own single piece. -/
def splitComma : List Char → List (List Char)
  | [] => [[]]
  | c :: cs =>
    if c = ',' then [] :: splitComma cs
    else
      match splitComma cs with
      | [] => [[c]]
      | h :: t => (c :: h) :: t

/-- Go: `strings.Split(text, ",")`. -/
def Split (text : String) : List String := (splitComma text.data).map String.mk

/-- Go: `type HttpServer struct`; the counter is the one built by `wordcounter.New()`, and
the mutex, which only serialises the handlers, is left out. -/
structure HttpServer where
  counter : wordCounter

/-- What a handler reads of a `*http.Request`: the method, and the body as read by
`io.ReadAll`, `none` when reading fails. -/
structure Request where
  Method : String
  Body : Option String

/-- What a handler writes to the `http.ResponseWriter`: the status code and the text. -/
structure Response where
  status : Nat
  text : String

/-- Go: `(hs *HttpServer) wordsHandler`. -/
def wordsHandler (hs : HttpServer) (r : Request) : Except Fault (HttpServer × Response) :=
  if r.Method ≠ "POST" then .ok (hs, ⟨405, "Invalid request method\n"⟩)
  else
    match r.Body with
    | none => .ok (hs, ⟨500, "Error reading request body\n"⟩)
    | some text =>
      match countWords hs.counter (Split text) with
      | .error f => .error f
      | .ok c => .ok (⟨c⟩, ⟨200, "Request processed successfully"⟩)

/-! ## Specification-level definitions -/

/-- Number of histogram entries whose count is exactly `f`. -/
def countAt (hist : List (String × Int)) (f : Int) : Nat :=
  List.countP (fun p => decide (p.2 = f)) hist

/-- The elements of a list are in strictly ascending order of `Value`. -/
def Ascending (l : List Element) : Prop := l.Pairwise (fun x y => x.Value < y.Value)

/-- The markers and the frequency list describe the batch sizes `cnt`. -/
structure MarkersOK (cnt : Int → Nat) (l : LinkedList) (mk : List (Int × Marker)) : Prop where
  addrNodup : (l.elems.map Element.addr).Nodup
  addrFresh : ∀ e ∈ l.elems, e.addr < l.alloc
  ascending : Ascending l.elems
  ofElem : ∀ e ∈ l.elems, mapLookup mk e.Value = some ⟨some e, (cnt e.Value : Int)⟩ ∧ 1 ≤ cnt e.Value
  ofMarker : ∀ f m, mapLookup mk f = some m → ∃ e ∈ l.elems, e.Value = f
  ofCount : ∀ f, 1 ≤ cnt f → ∃ e ∈ l.elems, e.Value = f
  positive : ∀ f, 1 ≤ cnt f → 1 ≤ f

/-- The invariant of the tracker. -/
structure Inv (wc : wordCounter) : Prop where
  keysNodup : (wc.wordsHistogram.map Prod.fst).Nodup
  countsPos : ∀ p ∈ wc.wordsHistogram, 1 ≤ p.2
  keysNonblank : ∀ p ∈ wc.wordsHistogram, p.1 ≠ ""
  markersOK : MarkersOK (countAt wc.wordsHistogram) wc.sortedFrequencies wc.markers
  slotsKnown : ∀ i, wc.top5 i = "" ∨ wc.top5 i ∈ wc.wordsHistogram.map Prod.fst
  slotsDistinct : ∀ i j, wc.top5 i = wc.top5 j → wc.top5 i ≠ "" → i = j
  slotsFull : ∀ i, wc.top5 i = "" → ∀ p ∈ wc.wordsHistogram, ∃ j, wc.top5 j = p.1

/-- Brute-force lower median, in the words of the specification: sort all per-word counts in
ascending order and take the element at 0-based index `floor(n/2)`. -/
def bruteForceMedian (hist : List (String × Int)) : Int :=
  (List.insertionSort (fun a b => a ≤ b) (hist.map Prod.snd)).getD (hist.length / 2) 0

/-- One more word at frequency `f`. -/
def bumpCnt (cnt : Int → Nat) (f : Int) : Int → Nat := fun g => if g = f then cnt g + 1 else cnt g

/-- One word fewer at frequency `f`. -/
def dropCnt (cnt : Int → Nat) (f : Int) : Int → Nat := fun g => if g = f then cnt g - 1 else cnt g

/-- Slot `j` is the lowest-indexed slot whose occupant has the minimal current count. -/
def LowestMinSlot (wc : wordCounter) (j : Fin 5) : Prop :=
  (∀ i, histGet wc (wc.top5 j) ≤ histGet wc (wc.top5 i)) ∧
  ∀ i, i < j → histGet wc (wc.top5 j) < histGet wc (wc.top5 i)

/-- The state in which `updateState` calls `updateTop5` and `updateMarkers`: the histogram
already holds the new count of the word. -/
def withCount (wc : wordCounter) (t : String) : wordCounter :=
  { wc with wordsHistogram := mapStore wc.wordsHistogram t (histGet wc t + 1) }

/-- The distinct non-blank trimmed words of an observation sequence. -/
def distinctWords (ws : List String) : List String :=
  ((ws.map TrimSpace).filter (fun t => decide (t ≠ ""))).dedup

/-- The occupied slots, in slot order. -/
def occupiedSlots (wc : wordCounter) : List (Fin 5) :=
  (List.finRange 5).filter (fun i => decide (wc.top5 i ≠ ""))

/-- The multiset described by the frequency list: each element's value, repeated as many
times as its batch size. -/
def expand (cnt : Int → Nat) : List Element → List Int
  | [] => []
  | e :: l => List.replicate (cnt e.Value) e.Value ++ expand cnt l

/-- The state after the calls `CountWord ws[0]`, `CountWord ws[1]`, ... on `New()`. -/
def stateAfter (ws : List String) : wordCounter :=
  match countWords New ws with
  | .ok wc => wc
  | .error _ => New

/-- Every word outside the five slots has a count that is at most the count of every slot
occupant (an empty slot counts 0). -/
def SlotsDominate (wc : wordCounter) : Prop :=
  ∀ s, (∀ i, wc.top5 i ≠ s) → ∀ j, histGet wc s ≤ histGet wc (wc.top5 j)

/-! ## Maps -/

theorem mapLookup_mapStore {κ ν : Type} [DecidableEq κ] (m : List (κ × ν)) (k k' : κ) (v : ν) :
    mapLookup (mapStore m k v) k' = if k = k' then some v else mapLookup m k' := by
  induction m with
  | nil => simp [mapStore, mapLookup]
  | cons p m ih =>
    obtain ⟨a, b⟩ := p
    simp only [mapStore, mapLookup]
    split_ifs with h1 h2 h3 <;> simp_all [mapLookup]

theorem mapLookup_mapDelete {κ ν : Type} [DecidableEq κ] (m : List (κ × ν)) (k k' : κ) :
    mapLookup (mapDelete m k) k' = if k = k' then none else mapLookup m k' := by
  induction m with
  | nil => simp [mapDelete, mapLookup]
  | cons p m ih =>
    obtain ⟨a, b⟩ := p
    unfold mapDelete at ih ⊢
    simp only [List.filter_cons, mapLookup]
    split_ifs with h1 h2 h3 <;> simp_all [mapLookup]

theorem mem_mapStore {κ ν : Type} [DecidableEq κ] (m : List (κ × ν)) (k : κ) (v : ν)
    (p : κ × ν) (h : p ∈ mapStore m k v) : p = (k, v) ∨ p ∈ m := by
  induction m with
  | nil =>
    simp [mapStore] at h
    exact Or.inl h
  | cons q m ih =>
    obtain ⟨a, b⟩ := q
    simp only [mapStore] at h
    split_ifs at h with h2
    · rcases List.mem_cons.mp h with h | h
      · exact Or.inl h
      · exact Or.inr (List.mem_cons_of_mem _ h)
    · rcases List.mem_cons.mp h with h | h
      · exact Or.inr (h ▸ List.mem_cons_self _ _)
      · rcases ih h with h | h
        · exact Or.inl h
        · exact Or.inr (List.mem_cons_of_mem _ h)

theorem mem_mapStore_of_mem {κ ν : Type} [DecidableEq κ] (m : List (κ × ν)) (k : κ) (v : ν)
    (p : κ × ν) (h : p ∈ m) (hk : p.1 ≠ k) : p ∈ mapStore m k v := by
  induction m with
  | nil => simp at h
  | cons q m ih =>
    obtain ⟨a, b⟩ := q
    simp only [mapStore]
    rcases List.mem_cons.mp h with h | h
    · subst h
      simp only at hk
      simp [hk]
    · split_ifs with h2
      · exact List.mem_cons_of_mem _ h
      · exact List.mem_cons_of_mem _ (ih h)

theorem self_mem_mapStore {κ ν : Type} [DecidableEq κ] (m : List (κ × ν)) (k : κ) (v : ν) :
    (k, v) ∈ mapStore m k v := by
  induction m with
  | nil => simp [mapStore]
  | cons q m ih =>
    obtain ⟨a, b⟩ := q
    simp only [mapStore]
    split_ifs with h2
    · exact List.mem_cons_self _ _
    · exact List.mem_cons_of_mem _ ih

theorem mapStore_length {κ ν : Type} [DecidableEq κ] (m : List (κ × ν)) (k : κ) (v : ν) :
    (mapStore m k v).length = if (mapLookup m k).isSome then m.length else m.length + 1 := by
  induction m with
  | nil => simp [mapStore, mapLookup]
  | cons q m ih =>
    obtain ⟨a, b⟩ := q
    simp only [mapStore, mapLookup]
    split_ifs with h1 h2 h3 <;> simp_all

theorem countP_mapStore_none {κ ν : Type} [DecidableEq κ] (q : κ × ν → Bool) (m : List (κ × ν))
    (k : κ) (v : ν) (h : mapLookup m k = none) :
    List.countP q (mapStore m k v) = List.countP q m + (if q (k, v) then 1 else 0) := by
  induction m with
  | nil => simp [mapStore, List.countP_cons]
  | cons p m ih =>
    obtain ⟨a, b⟩ := p
    simp only [mapLookup] at h
    split_ifs at h with h1
    simp only [mapStore, if_neg h1, List.countP_cons, ih h]
    omega

theorem countP_mapStore_some {κ ν : Type} [DecidableEq κ] (q : κ × ν → Bool) (m : List (κ × ν))
    (k : κ) (v c : ν) (h : mapLookup m k = some c) :
    List.countP q (mapStore m k v) + (if q (k, c) then 1 else 0) =
      List.countP q m + (if q (k, v) then 1 else 0) := by
  induction m with
  | nil => simp [mapLookup] at h
  | cons p m ih =>
    obtain ⟨a, b⟩ := p
    simp only [mapLookup] at h
    split_ifs at h with h1
    · subst h1
      cases h
      simp only [mapStore, if_true, List.countP_cons]
      omega
    · have := ih h
      simp only [mapStore, if_neg h1, List.countP_cons]
      omega
theorem mapLookup_eq_none {κ ν : Type} [DecidableEq κ] (m : List (κ × ν)) (k : κ) :
    mapLookup m k = none ↔ k ∉ m.map Prod.fst := by
  induction m with
  | nil => simp [mapLookup]
  | cons p m ih =>
    obtain ⟨a, b⟩ := p
    by_cases h : a = k
    · simp [mapLookup, h]
    · have h' : ¬ k = a := fun e => h e.symm
      simp [mapLookup, h, h', ih]

theorem mapLookup_mem {κ ν : Type} [DecidableEq κ] (m : List (κ × ν)) (k : κ) (v : ν)
    (h : mapLookup m k = some v) : (k, v) ∈ m := by
  induction m with
  | nil => simp [mapLookup] at h
  | cons p m ih =>
    obtain ⟨a, b⟩ := p
    by_cases h2 : a = k
    · simp [mapLookup, h2] at h
      simp [h2, h]
    · simp [mapLookup, h2] at h
      exact List.mem_cons_of_mem _ (ih h)

theorem mapLookup_of_mem {κ ν : Type} [DecidableEq κ] (m : List (κ × ν)) (k : κ) (v : ν)
    (hn : (m.map Prod.fst).Nodup) (h : (k, v) ∈ m) : mapLookup m k = some v := by
  induction m with
  | nil => simp at h
  | cons p m ih =>
    obtain ⟨a, b⟩ := p
    simp only [List.map_cons, List.nodup_cons] at hn
    rcases List.mem_cons.mp h with h1 | h1
    · cases h1
      simp [mapLookup]
    · have hne : a ≠ k := by
        intro e
        subst e
        exact hn.1 (List.mem_map_of_mem Prod.fst h1)
      simp [mapLookup, hne, ih hn.2 h1]

theorem mapStore_of_not_mem {κ ν : Type} [DecidableEq κ] (m : List (κ × ν)) (k : κ) (v : ν)
    (h : k ∉ m.map Prod.fst) : mapStore m k v = m ++ [(k, v)] := by
  induction m with
  | nil => simp [mapStore]
  | cons p m ih =>
    obtain ⟨a, b⟩ := p
    simp only [List.map_cons, List.mem_cons, not_or] at h
    have h' : ¬ a = k := fun e => h.1 e.symm
    simp [mapStore, h', ih h.2]

theorem mapStore_keys_nodup {κ ν : Type} [DecidableEq κ] (m : List (κ × ν)) (k : κ) (v : ν)
    (hn : (m.map Prod.fst).Nodup) : ((mapStore m k v).map Prod.fst).Nodup := by
  induction m with
  | nil => simp [mapStore]
  | cons p m ih =>
    obtain ⟨a, b⟩ := p
    simp only [List.map_cons, List.nodup_cons] at hn
    simp only [mapStore]
    split_ifs with h
    · subst h
      simpa using hn
    · simp only [List.map_cons, List.nodup_cons]
      refine ⟨?_, ih hn.2⟩
      intro hm
      obtain ⟨p, hp, hpa⟩ := List.mem_map.mp hm
      rcases mem_mapStore m k v p hp with h1 | h1
      · subst h1
        exact h hpa.symm
      · exact hn.1 (List.mem_map.mpr ⟨p, h1, hpa⟩)

/-! ## TrimSpace -/

theorem dropWhile_rdropWhile (p : Char → Bool) (l : List Char)
    (h : List.dropWhile p l = l) : List.dropWhile p (List.rdropWhile p l) = List.rdropWhile p l := by
  obtain ⟨t, ht⟩ := List.rdropWhile_prefix p l
  cases hr : List.rdropWhile p l with
  | nil => rfl
  | cons y r =>
    rw [hr] at ht
    rw [← ht] at h
    simp only [List.cons_append, List.dropWhile_cons] at h
    by_cases hy : p y = true
    · rw [if_pos hy] at h
      have : List.dropWhile p (r ++ t) <:+ (r ++ t) := List.dropWhile_suffix p
      have hl := this.length_le
      rw [h] at hl
      simp at hl
    · simp [List.dropWhile_cons, hy]

theorem TrimSpace_idempotent (s : String) : TrimSpace (TrimSpace s) = TrimSpace s := by
  unfold TrimSpace
  simp only
  rw [dropWhile_rdropWhile isSpace _ (List.dropWhile_idempotent isSpace s.data),
    List.rdropWhile_idempotent]

/-! ## The frequency list -/

theorem Ascending.value_inj {l : List Element} (h : Ascending l) {x y : Element}
    (hx : x ∈ l) (hy : y ∈ l) (hv : x.Value = y.Value) : x = y := by
  induction l with
  | nil => simp at hx
  | cons z zs ih =>
    unfold Ascending at h ih
    rw [List.pairwise_cons] at h
    rcases List.mem_cons.mp hx with hx | hx <;> rcases List.mem_cons.mp hy with hy | hy
    · rw [hx, hy]
    · have := h.1 y hy
      subst hx
      omega
    · have := h.1 x hx
      subst hy
      omega
    · exact ih h.2 hx hy

theorem addr_inj {l : List Element} (h : (l.map Element.addr).Nodup) {x y : Element}
    (hx : x ∈ l) (hy : y ∈ l) (hv : x.addr = y.addr) : x = y :=
  List.inj_on_of_nodup_map h hx hy hv

namespace LinkedList

theorem spliceAfter_perm (e : Element) (a : Nat) (l : List Element)
    (h : ∃ x ∈ l, x.addr = a) : (spliceAfter e a l).Perm (e :: l) := by
  induction l with
  | nil => simp at h
  | cons x xs ih =>
    simp only [spliceAfter]
    split_ifs with hx
    · exact List.Perm.swap e x xs
    · have h2 : ∃ y ∈ xs, y.addr = a := by
        obtain ⟨y, hy, hya⟩ := h
        rcases List.mem_cons.mp hy with hy | hy
        · subst hy
          exact absurd hya hx
        · exact ⟨y, hy, hya⟩
      exact ((ih h2).cons x).trans (List.Perm.swap e x xs)

theorem spliceAfter_ascending (e : Element) (a : Nat) (l : List Element)
    (hs : Ascending l) (hv : ∀ x ∈ l, x.addr = a → x.Value = e.Value - 1)
    (hne : ∀ x ∈ l, x.Value ≠ e.Value) (hex : ∃ x ∈ l, x.addr = a) :
    Ascending (spliceAfter e a l) := by
  induction l with
  | nil => simp at hex
  | cons x xs ih =>
    unfold Ascending at hs ih ⊢
    rw [List.pairwise_cons] at hs
    simp only [spliceAfter]
    split_ifs with hx
    · have hxv := hv x (List.mem_cons_self _ _) hx
      rw [List.pairwise_cons, List.pairwise_cons]
      refine ⟨?_, ?_, hs.2⟩
      · intro y hy
        rcases List.mem_cons.mp hy with hy | hy
        · subst hy
          omega
        · exact hs.1 y hy
      · intro y hy
        have h1 := hs.1 y hy
        have h2 := hne y (List.mem_cons_of_mem _ hy)
        omega
    · have h2 : ∃ y ∈ xs, y.addr = a := by
        obtain ⟨y, hy, hya⟩ := hex
        rcases List.mem_cons.mp hy with hy | hy
        · subst hy
          exact absurd hya hx
        · exact ⟨y, hy, hya⟩
      rw [List.pairwise_cons]
      refine ⟨?_, ih hs.2 (fun y hy => hv y (List.mem_cons_of_mem _ hy))
        (fun y hy => hne y (List.mem_cons_of_mem _ hy)) h2⟩
      intro y hy
      rcases List.mem_cons.mp ((spliceAfter_perm e a xs h2).mem_iff.mp hy) with hy | hy
      · subst hy
        obtain ⟨z, hz, hza⟩ := h2
        have h3 := hv z (List.mem_cons_of_mem _ hz) hza
        have h4 := hs.1 z hz
        omega
      · exact hs.1 y hy

theorem linked_iff (l : LinkedList) (a : Nat) : l.linked a = true ↔ ∃ x ∈ l.elems, x.addr = a := by
  simp [linked]

theorem nextOf_append (pre post : List Element) (e : Element)
    (h : ∀ x ∈ pre, x.addr ≠ e.addr) : nextOf e.addr (pre ++ e :: post) = post.head? := by
  induction pre with
  | nil => simp [nextOf]
  | cons x xs ih =>
    have hx := h x (List.mem_cons_self _ _)
    simp only [List.cons_append, nextOf, if_neg hx]
    exact ih (fun y hy => h y (List.mem_cons_of_mem _ hy))

end LinkedList

/-! ## Markers -/

theorem MarkersOK.lookup_iff {cnt : Int → Nat} {l : LinkedList} {mk : List (Int × Marker)}
    (h : MarkersOK cnt l mk) (f : Int) : (mapLookup mk f).isSome ↔ 1 ≤ cnt f := by
  constructor
  · intro hs
    obtain ⟨m, hm⟩ := Option.isSome_iff_exists.mp hs
    obtain ⟨e, he, hev⟩ := h.ofMarker f m hm
    have := (h.ofElem e he).2
    rwa [hev] at this
  · intro hc
    obtain ⟨e, he, hev⟩ := h.ofCount f hc
    have := (h.ofElem e he).1
    rw [hev] at this
    simp [this]

theorem MarkersOK.lookup_of_count {cnt : Int → Nat} {l : LinkedList} {mk : List (Int × Marker)}
    (h : MarkersOK cnt l mk) (f : Int) (hc : 1 ≤ cnt f) :
    ∃ e ∈ l.elems, e.Value = f ∧ mapLookup mk f = some ⟨some e, (cnt f : Int)⟩ := by
  obtain ⟨e, he, hev⟩ := h.ofCount f hc
  have := (h.ofElem e he).1
  rw [hev] at this
  exact ⟨e, he, hev, this⟩

theorem MarkersOK.insert {cnt : Int → Nat} {l l' : LinkedList} {mk : List (Int × Marker)}
    (h : MarkersOK cnt l mk) (f : Int) (hz : cnt f = 0) (hf : 1 ≤ f)
    (hp : l'.elems.Perm (⟨l.alloc, f⟩ :: l.elems)) (ha : Ascending l'.elems)
    (hal : l'.alloc = l.alloc + 1) :
    MarkersOK (bumpCnt cnt f) l' (mapStore mk f ⟨some ⟨l.alloc, f⟩, 1⟩) := by
  have hmem : ∀ x, x ∈ l'.elems ↔ x = ⟨l.alloc, f⟩ ∨ x ∈ l.elems := by
    intro x
    rw [hp.mem_iff, List.mem_cons]
  have hold : ∀ x ∈ l.elems, x.Value ≠ f := by
    intro x hx hxv
    have := (h.ofElem x hx).2
    rw [hxv, hz] at this
    omega
  refine ⟨?_, ?_, ha, ?_, ?_, ?_, ?_⟩
  · rw [(hp.map Element.addr).nodup_iff, List.map_cons, List.nodup_cons]
    refine ⟨?_, h.addrNodup⟩
    intro hm
    obtain ⟨x, hx, hxa⟩ := List.mem_map.mp hm
    have := h.addrFresh x hx
    simp only at hxa
    omega
  · intro x hx
    rcases (hmem x).mp hx with hx | hx
    · subst hx
      simp only
      omega
    · have := h.addrFresh x hx
      omega
  · intro x hx
    rcases (hmem x).mp hx with hx | hx
    · subst hx
      simp [mapLookup_mapStore, bumpCnt, hz]
    · have hne := hold x hx
      have hne' : ¬ f = x.Value := fun e => hne e.symm
      have := h.ofElem x hx
      simp only [mapLookup_mapStore, if_neg hne', bumpCnt, if_neg hne]
      exact this
  · intro g m hm
    rw [mapLookup_mapStore] at hm
    split_ifs at hm with hg
    · exact ⟨⟨l.alloc, f⟩, (hmem _).mpr (Or.inl rfl), hg⟩
    · obtain ⟨x, hx, hxv⟩ := h.ofMarker g m hm
      exact ⟨x, (hmem _).mpr (Or.inr hx), hxv⟩
  · intro g hg
    by_cases hgf : g = f
    · exact ⟨⟨l.alloc, f⟩, (hmem _).mpr (Or.inl rfl), hgf.symm⟩
    · simp only [bumpCnt, if_neg hgf] at hg
      obtain ⟨x, hx, hxv⟩ := h.ofCount g hg
      exact ⟨x, (hmem _).mpr (Or.inr hx), hxv⟩
  · intro g hg
    by_cases hgf : g = f
    · omega
    · simp only [bumpCnt, if_neg hgf] at hg
      exact h.positive g hg

theorem MarkersOK.incr {cnt : Int → Nat} {l : LinkedList} {mk : List (Int × Marker)}
    (h : MarkersOK cnt l mk) (f : Int) (m : Marker) (hm : mapLookup mk f = some m) :
    MarkersOK (bumpCnt cnt f) l (mapStore mk f { m with batchSize := m.batchSize + 1 }) := by
  obtain ⟨e, he, hev⟩ := h.ofMarker f m hm
  have hme := (h.ofElem e he).1
  rw [hev, hm] at hme
  cases hme
  refine ⟨h.addrNodup, h.addrFresh, h.ascending, ?_, ?_, ?_, ?_⟩
  · intro x hx
    by_cases hxv : x.Value = f
    · have hxe : x = e := h.ascending.value_inj hx he (hxv.trans hev.symm)
      subst hxe
      simp [mapLookup_mapStore, bumpCnt, hxv]
    · have hne' : ¬ f = x.Value := fun e => hxv e.symm
      simp only [mapLookup_mapStore, if_neg hne', bumpCnt, if_neg hxv]
      exact h.ofElem x hx
  · intro g m' hm'
    rw [mapLookup_mapStore] at hm'
    split_ifs at hm' with hg
    · exact ⟨e, he, hev.trans hg⟩
    · exact h.ofMarker g m' hm'
  · intro g hg
    by_cases hgf : g = f
    · exact ⟨e, he, hev.trans hgf.symm⟩
    · simp only [bumpCnt, if_neg hgf] at hg
      exact h.ofCount g hg
  · intro g hg
    by_cases hgf : g = f
    · have := (h.ofElem e he).2
      rw [hev] at this
      rw [hgf]
      exact h.positive f this
    · simp only [bumpCnt, if_neg hgf] at hg
      exact h.positive g hg

theorem MarkersOK.decr {cnt : Int → Nat} {l : LinkedList} {mk : List (Int × Marker)}
    (h : MarkersOK cnt l mk) (f : Int) (m : Marker) (hm : mapLookup mk f = some m)
    (h2 : 2 ≤ cnt f) :
    MarkersOK (dropCnt cnt f) l (mapStore mk f { m with batchSize := m.batchSize - 1 }) := by
  obtain ⟨e, he, hev⟩ := h.ofMarker f m hm
  have hme := (h.ofElem e he).1
  rw [hev, hm] at hme
  cases hme
  refine ⟨h.addrNodup, h.addrFresh, h.ascending, ?_, ?_, ?_, ?_⟩
  · intro x hx
    by_cases hxv : x.Value = f
    · have hxe : x = e := h.ascending.value_inj hx he (hxv.trans hev.symm)
      subst hxe
      simp only [mapLookup_mapStore, hxv, if_true, dropCnt]
      refine ⟨?_, by omega⟩
      congr 2
      omega
    · have hne' : ¬ f = x.Value := fun e => hxv e.symm
      simp only [mapLookup_mapStore, if_neg hne', dropCnt, if_neg hxv]
      exact h.ofElem x hx
  · intro g m' hm'
    rw [mapLookup_mapStore] at hm'
    split_ifs at hm' with hg
    · exact ⟨e, he, hev.trans hg⟩
    · exact h.ofMarker g m' hm'
  · intro g hg
    by_cases hgf : g = f
    · exact ⟨e, he, hev.trans hgf.symm⟩
    · simp only [dropCnt, if_neg hgf] at hg
      exact h.ofCount g hg
  · intro g hg
    by_cases hgf : g = f
    · rw [hgf]
      exact h.positive f (by omega)
    · simp only [dropCnt, if_neg hgf] at hg
      exact h.positive g hg

theorem MarkersOK.remove {cnt : Int → Nat} {l : LinkedList} {mk : List (Int × Marker)}
    (h : MarkersOK cnt l mk) (f : Int) (e : Element) (he : e ∈ l.elems) (hev : e.Value = f)
    (h1 : cnt f = 1) :
    MarkersOK (dropCnt cnt f) (l.Remove e) (mapDelete mk f) := by
  have hmem : ∀ x, x ∈ (l.Remove e).elems ↔ x ∈ l.elems ∧ x.Value ≠ f := by
    intro x
    simp only [LinkedList.Remove, List.mem_filter, decide_eq_true_eq]
    constructor
    · rintro ⟨hx, hxa⟩
      refine ⟨hx, fun hxv => hxa ?_⟩
      rw [h.ascending.value_inj hx he (hxv.trans hev.symm)]
    · rintro ⟨hx, hxv⟩
      refine ⟨hx, fun hxa => hxv ?_⟩
      rw [addr_inj h.addrNodup hx he hxa, hev]
  have hsub : (l.Remove e).elems.Sublist l.elems := List.filter_sublist _
  refine ⟨?_, ?_, ?_, ?_, ?_, ?_, ?_⟩
  · exact h.addrNodup.sublist (hsub.map Element.addr)
  · intro x hx
    exact h.addrFresh x ((hmem x).mp hx).1
  · exact List.Pairwise.sublist hsub h.ascending
  · intro x hx
    obtain ⟨hx1, hxv⟩ := (hmem x).mp hx
    have hne' : ¬ f = x.Value := fun e => hxv e.symm
    simp only [mapLookup_mapDelete, if_neg hne', dropCnt, if_neg hxv]
    exact h.ofElem x hx1
  · intro g m hm
    rw [mapLookup_mapDelete] at hm
    split_ifs at hm with hg
    obtain ⟨x, hx, hxv⟩ := h.ofMarker g m hm
    exact ⟨x, (hmem x).mpr ⟨hx, fun e => hg (e.symm.trans hxv)⟩, hxv⟩
  · intro g hg
    by_cases hgf : g = f
    · simp only [dropCnt, hgf, if_true, h1] at hg
      omega
    · simp only [dropCnt, if_neg hgf] at hg
      obtain ⟨x, hx, hxv⟩ := h.ofCount g hg
      exact ⟨x, (hmem x).mpr ⟨hx, fun e => hgf (hxv.symm.trans e)⟩, hxv⟩
  · intro g hg
    by_cases hgf : g = f
    · simp only [dropCnt, hgf, if_true, h1] at hg
      omega
    · simp only [dropCnt, if_neg hgf] at hg
      exact h.positive g hg

/-- On a consistent structure `addFrequency` succeeds for an absent frequency whose
predecessor is present (or which is 1), and the structure stays consistent. -/
theorem addFrequency_ok {cnt : Int → Nat} (wc : wordCounter) (f : Int)
    (h : MarkersOK cnt wc.sortedFrequencies wc.markers) (hz : cnt f = 0)
    (hp : f = 1 ∨ 1 ≤ cnt (f - 1)) :
    ∃ l mk, addFrequency wc f = .ok { wc with sortedFrequencies := l, markers := mk } ∧
      MarkersOK (bumpCnt cnt f) l mk ∧
      mapLookup mk f = some ⟨some ⟨wc.sortedFrequencies.alloc, f⟩, 1⟩ := by
  by_cases hf : f = 1
  · subst hf
    refine ⟨(wc.sortedFrequencies.PushFront 1).1,
      mapStore wc.markers 1 ⟨some (wc.sortedFrequencies.PushFront 1).2, 1⟩,
      by simp [addFrequency], ?_, by simp [mapLookup_mapStore, LinkedList.PushFront]⟩
    refine h.insert 1 hz (le_refl _) (List.Perm.refl _) ?_ rfl
    show Ascending (_ :: _)
    unfold Ascending
    rw [List.pairwise_cons]
    refine ⟨?_, h.ascending⟩
    intro y hy
    have h1 := (h.ofElem y hy).2
    have h2 := h.positive _ h1
    have h3 : y.Value ≠ 1 := by
      intro e
      rw [e, hz] at h1
      omega
    simp only
    omega
  · have hc : 1 ≤ cnt (f - 1) := by
      rcases hp with hp | hp
      · exact absurd hp hf
      · exact hp
    obtain ⟨e, he, hev, hlk⟩ := h.lookup_of_count (f - 1) hc
    have hlinked : wc.sortedFrequencies.linked e.addr = true :=
      (LinkedList.linked_iff _ _).mpr ⟨e, he, rfl⟩
    have hex : ∃ x ∈ wc.sortedFrequencies.elems, x.addr = e.addr := ⟨e, he, rfl⟩
    refine ⟨⟨LinkedList.spliceAfter ⟨wc.sortedFrequencies.alloc, f⟩ e.addr
        wc.sortedFrequencies.elems, wc.sortedFrequencies.alloc + 1⟩,
      mapStore wc.markers f ⟨some ⟨wc.sortedFrequencies.alloc, f⟩, 1⟩,
      by simp [addFrequency, hf, hlk, LinkedList.InsertAfter, hlinked], ?_,
      by simp [mapLookup_mapStore]⟩
    have hf1 : 1 ≤ f := by
      have := h.positive _ hc
      omega
    refine h.insert f hz hf1 (LinkedList.spliceAfter_perm _ _ _ hex) ?_ rfl
    apply LinkedList.spliceAfter_ascending _ _ _ h.ascending _ _ hex
    · intro x hx hxa
      rw [addr_inj h.addrNodup hx he hxa, hev]
    · intro x hx hxv
      have := (h.ofElem x hx).2
      simp only at hxv
      rw [hxv, hz] at this
      omega

/-- On a consistent structure `updateMarkers (c + 1)` succeeds when some word was at
frequency `c` (or `c = 0`), and moves one unit of batch from `c` to `c + 1`. -/
theorem updateMarkers_ok {cnt : Int → Nat} (wc : wordCounter) (c : Int)
    (h : MarkersOK cnt wc.sortedFrequencies wc.markers) (hc : c = 0 ∨ 1 ≤ cnt c) :
    ∃ l mk, updateMarkers wc (c + 1) = .ok { wc with sortedFrequencies := l, markers := mk } ∧
      MarkersOK (dropCnt (bumpCnt cnt (c + 1)) c) l mk := by
  -- first half: the marker of the new frequency
  have hA : ∃ l mk, markCurrent wc (c + 1) =
        .ok { wc with sortedFrequencies := l, markers := mk } ∧
        MarkersOK (bumpCnt cnt (c + 1)) l mk := by
    unfold markCurrent
    cases hm : mapLookup wc.markers (c + 1) with
    | none =>
      have hz : cnt (c + 1) = 0 := by
        by_contra hne
        have := (h.lookup_iff (c + 1)).mpr (by omega)
        simp [hm] at this
      have hp : c + 1 = 1 ∨ 1 ≤ cnt (c + 1 - 1) := by
        rcases hc with hc | hc
        · exact Or.inl (by omega)
        · right
          rwa [add_sub_cancel_right]
      obtain ⟨l, mk, h1, h2, _⟩ := addFrequency_ok wc (c + 1) h hz hp
      exact ⟨l, mk, h1, h2⟩
    | some m => exact ⟨wc.sortedFrequencies, _, rfl, h.incr (c + 1) m hm⟩
  obtain ⟨l, mk, hA1, hA2⟩ := hA
  unfold updateMarkers
  rw [hA1]
  simp only
  -- second half: the marker of the previous frequency
  rcases hc with hc | hc
  · subst hc
    refine ⟨l, mk, by simp [releasePrev], ?_⟩
    have : dropCnt (bumpCnt cnt (0 + 1)) 0 = bumpCnt cnt (0 + 1) := by
      funext g
      by_cases hg : g = 0
      · subst hg
        have : cnt 0 = 0 := by
          by_contra hne
          have := h.positive 0 (by omega)
          omega
        simp [dropCnt, bumpCnt, this]
      · simp [dropCnt, hg]
    rw [this]
    exact hA2
  · have hcpos : 1 ≤ c := h.positive c hc
    have hc' : 1 ≤ bumpCnt cnt (c + 1) c := by
      simp only [bumpCnt]
      split_ifs <;> omega
    have hbc : bumpCnt cnt (c + 1) c = cnt c := by
      simp [bumpCnt]
    obtain ⟨e, he, hev, hlk⟩ := hA2.lookup_of_count c hc'
    by_cases h1 : cnt c = 1
    · refine ⟨LinkedList.Remove l e, mapDelete mk c, ?_,
        hA2.remove c e he hev (by rw [hbc, h1])⟩
      simp [releasePrev, hcpos, hlk, hbc, h1]
      omega
    · refine ⟨l, mapStore mk c ⟨some e, (bumpCnt cnt (c + 1) c : Int) - 1⟩, ?_,
        hA2.decr c _ hlk (by rw [hbc]; omega)⟩
      have : ¬ ((cnt c : Int) = 1) := by omega
      simp [releasePrev, hlk, hbc, this]
      omega

/-! ## The scan of the five slots -/

theorem LowestMinSlot.unique {wc : wordCounter} {j k : Fin 5} (hj : LowestMinSlot wc j)
    (hk : LowestMinSlot wc k) : j = k := by
  rcases lt_trichotomy j k with h | h | h
  · have h1 := hk.2 j h
    have h2 := hj.1 k
    omega
  · exact h
  · have h1 := hj.2 k h
    have h2 := hk.1 j
    omega

theorem top5Step_cur (wc : wordCounter) (word : String) (st : Top5Scan) (i : Fin 5) :
    (top5Step wc word st i).curWordIdx = if wc.top5 i = word then i.val else st.curWordIdx := by
  unfold top5Step
  simp only
  split_ifs <;> rfl

theorem top5Step_take (wc : wordCounter) (word : String) (st : Top5Scan) (i : Fin 5)
    (h : st.minWordIdx = 5 ∨ histGet wc (wc.top5 i) < st.minWordFreq) :
    (top5Step wc word st i).minWordIdx = i.val ∧
      (top5Step wc word st i).minWordFreq = histGet wc (wc.top5 i) := by
  unfold top5Step
  simp only
  split_ifs <;> exact ⟨rfl, rfl⟩

theorem top5Step_keep (wc : wordCounter) (word : String) (st : Top5Scan) (i : Fin 5)
    (h : ¬ (st.minWordIdx = 5 ∨ histGet wc (wc.top5 i) < st.minWordFreq)) :
    (top5Step wc word st i).minWordIdx = st.minWordIdx ∧
      (top5Step wc word st i).minWordFreq = st.minWordFreq := by
  unfold top5Step
  simp only
  split_ifs <;> exact ⟨rfl, rfl⟩

/-- Loop invariant of `updateTop5` after the slots in `l` have been visited. -/
theorem top5Scan_invariant (wc : wordCounter) (word : String) (l : List (Fin 5))
    (hl : l.Pairwise (fun a b => a < b)) :
    ((List.foldl (top5Step wc word) ⟨5, 5, 0⟩ l).curWordIdx = 5 ↔ ∀ i ∈ l, wc.top5 i ≠ word) ∧
    (l = [] → (List.foldl (top5Step wc word) ⟨5, 5, 0⟩ l).minWordIdx = 5) ∧
    (l ≠ [] → ∃ j ∈ l, (List.foldl (top5Step wc word) ⟨5, 5, 0⟩ l).minWordIdx = j.val ∧
      (List.foldl (top5Step wc word) ⟨5, 5, 0⟩ l).minWordFreq = histGet wc (wc.top5 j) ∧
      (∀ i ∈ l, histGet wc (wc.top5 j) ≤ histGet wc (wc.top5 i)) ∧
      (∀ i ∈ l, i < j → histGet wc (wc.top5 j) < histGet wc (wc.top5 i))) := by
  induction l using List.reverseRecOn with
  | nil => simp
  | append_singleton l a ih =>
    rw [List.pairwise_append] at hl
    obtain ⟨hl1, -, hl3⟩ := hl
    have hlt : ∀ i ∈ l, i < a := fun i hi => hl3 i hi a (List.mem_singleton_self a)
    obtain ⟨ih1, ih2, ih3⟩ := ih hl1
    simp only [List.foldl_concat]
    generalize List.foldl (top5Step wc word) ⟨5, 5, 0⟩ l = st at ih1 ih2 ih3
    have ha5 : a.val ≠ 5 := by omega
    refine ⟨?_, by simp, fun _ => ?_⟩
    · rw [top5Step_cur]
      constructor
      · intro h i hi
        rcases List.mem_append.mp hi with hi | hi
        · refine ih1.mp ?_ i hi
          split_ifs at h with hw
          · exact absurd h ha5
          · exact h
        · rw [List.mem_singleton] at hi
          subst hi
          intro hw
          rw [if_pos hw] at h
          exact ha5 h
      · intro h
        have hw : wc.top5 a ≠ word := h a (by simp)
        rw [if_neg hw]
        exact ih1.mpr (fun i hi => h i (by simp [hi]))
    · by_cases hnil : l = []
      · subst hnil
        have h5 := ih2 rfl
        obtain ⟨t1, t2⟩ := top5Step_take wc word st a (Or.inl h5)
        exact ⟨a, by simp, t1, t2, by simp, by simp⟩
      · obtain ⟨j, hj, hj1, hj2, hj3, hj4⟩ := ih3 hnil
        have hj5 : st.minWordIdx ≠ 5 := by omega
        by_cases hc : histGet wc (wc.top5 a) < st.minWordFreq
        · obtain ⟨t1, t2⟩ := top5Step_take wc word st a (Or.inr hc)
          refine ⟨a, by simp, t1, t2, ?_, ?_⟩
          · intro i hi
            rcases List.mem_append.mp hi with hi | hi
            · have := hj3 i hi
              omega
            · rw [List.mem_singleton] at hi
              rw [hi]
          · intro i hi hia
            rcases List.mem_append.mp hi with hi | hi
            · have := hj3 i hi
              omega
            · rw [List.mem_singleton] at hi
              subst hi
              exact absurd hia (lt_irrefl _)
        · obtain ⟨t1, t2⟩ := top5Step_keep wc word st a (by
            rintro (h | h)
            · exact hj5 h
            · exact hc h)
          refine ⟨j, by simp [hj], t1.trans hj1, t2.trans hj2, ?_, ?_⟩
          · intro i hi
            rcases List.mem_append.mp hi with hi | hi
            · exact hj3 i hi
            · rw [List.mem_singleton] at hi
              subst hi
              omega
          · intro i hi hij
            rcases List.mem_append.mp hi with hi | hi
            · exact hj4 i hi hij
            · rw [List.mem_singleton] at hi
              subst hi
              exact absurd (hlt j hj) (not_lt_of_gt hij)

theorem top5Scan_spec (wc : wordCounter) (word : String) :
    ((top5Scan wc word).curWordIdx = 5 ↔ ∀ i, wc.top5 i ≠ word) ∧
    ∃ j : Fin 5, (top5Scan wc word).minWordIdx = j.val ∧
      (top5Scan wc word).minWordFreq = histGet wc (wc.top5 j) ∧ LowestMinSlot wc j := by
  have hs : (List.finRange 5).Pairwise (fun a b => a < b) := by decide
  obtain ⟨h1, -, h3⟩ := top5Scan_invariant wc word (List.finRange 5) hs
  refine ⟨?_, ?_⟩
  · rw [top5Scan, h1]
    exact ⟨fun h i => h i (List.mem_finRange i), fun h i _ => h i⟩
  · obtain ⟨j, -, hj1, hj2, hj3, hj4⟩ := h3 (by decide)
    exact ⟨j, hj1, hj2, fun i => hj3 i (List.mem_finRange i),
      fun i hi => hj4 i (List.mem_finRange i) hi⟩

/-- What `updateTop5` does, in terms of the lowest minimal slot. -/
theorem updateTop5_spec (wc : wordCounter) (word : String) (frequency : Int) :
    ((∃ i, wc.top5 i = word) → updateTop5 wc word frequency = .ok wc) ∧
    ((∀ i, wc.top5 i ≠ word) → ∀ j, LowestMinSlot wc j →
      (histGet wc (wc.top5 j) < frequency →
        updateTop5 wc word frequency =
          .ok { wc with top5 := Function.update wc.top5 j word }) ∧
      (frequency ≤ histGet wc (wc.top5 j) → updateTop5 wc word frequency = .ok wc)) := by
  obtain ⟨h1, k, hk1, hk2, hk3⟩ := top5Scan_spec wc word
  refine ⟨?_, ?_⟩
  · rintro ⟨i, hi⟩
    have : ¬ (top5Scan wc word).curWordIdx = 5 := fun h => (h1.mp h) i hi
    simp [updateTop5, this]
  · intro hno j hj
    have hjk : j = k := hj.unique hk3
    subst hjk
    have h5 : (top5Scan wc word).curWordIdx = 5 := h1.mpr hno
    have hlt : (top5Scan wc word).minWordIdx < 5 := by
      rw [hk1]
      exact j.isLt
    constructor
    · intro hf
      have hj' : (⟨(top5Scan wc word).minWordIdx, hlt⟩ : Fin 5) = j := Fin.ext hk1
      simp only [updateTop5, h5, hk2, gt_iff_lt, hf, and_self, if_true, dif_pos hlt, hj']
    · intro hf
      have : ¬ (histGet wc (wc.top5 j) < frequency) := by omega
      simp [updateTop5, hk2, this]

theorem length_eq_zero_iff (s : String) : s.length = 0 ↔ s = "" := by
  constructor
  · intro h
    have : s.data = [] := List.length_eq_zero.mp h
    exact String.ext this
  · intro h
    subst h
    rfl

theorem CountWord_blank (wc : wordCounter) (w : String) (h : TrimSpace w = "") :
    CountWord wc w = .ok wc := by
  simp [CountWord, h]

theorem CountWord_nonblank (wc : wordCounter) (w : String) (h : TrimSpace w ≠ "") :
    CountWord wc w = updateState wc (TrimSpace w) (histGet wc (TrimSpace w) + 1) := by
  have : ¬ (TrimSpace w).length = 0 := fun e => h ((length_eq_zero_iff _).mp e)
  simp [CountWord, this]

theorem mem_keys_mapStore {κ ν : Type} [DecidableEq κ] (m : List (κ × ν)) (k k' : κ) (v : ν) :
    k' ∈ (mapStore m k v).map Prod.fst ↔ k' = k ∨ k' ∈ m.map Prod.fst := by
  rw [← not_iff_not, ← mapLookup_eq_none, mapLookup_mapStore, not_or, ← mapLookup_eq_none]
  by_cases h : k = k'
  · simp [h]
  · have h' : ¬ k' = k := fun e => h e.symm
    simp [h, h']

theorem histGet_pos_of_mem (wc : wordCounter) (h : Inv wc) (s : String)
    (hs : s ∈ wc.wordsHistogram.map Prod.fst) : 1 ≤ histGet wc s := by
  obtain ⟨p, hp, hps⟩ := List.mem_map.mp hs
  obtain ⟨k, v⟩ := p
  simp only at hps
  subst hps
  have := mapLookup_of_mem _ _ _ h.keysNodup hp
  simp only [histGet, this, Option.getD_some]
  exact h.countsPos _ hp

theorem histGet_of_not_mem (wc : wordCounter) (s : String)
    (hs : s ∉ wc.wordsHistogram.map Prod.fst) : histGet wc s = 0 := by
  simp [histGet, (mapLookup_eq_none _ _).mpr hs]

theorem histGet_nonneg (wc : wordCounter) (h : Inv wc) (s : String) : 0 ≤ histGet wc s := by
  by_cases hs : s ∈ wc.wordsHistogram.map Prod.fst
  · have := histGet_pos_of_mem wc h s hs
    omega
  · rw [histGet_of_not_mem wc s hs]

theorem mem_keys_iff_pos (wc : wordCounter) (h : Inv wc) (s : String) :
    s ∈ wc.wordsHistogram.map Prod.fst ↔ 1 ≤ histGet wc s := by
  constructor
  · exact histGet_pos_of_mem wc h s
  · intro hp
    by_contra hs
    rw [histGet_of_not_mem wc s hs] at hp
    omega

theorem histGet_blank (wc : wordCounter) (h : Inv wc) : histGet wc "" = 0 := by
  apply histGet_of_not_mem
  intro hm
  obtain ⟨p, hp, hps⟩ := List.mem_map.mp hm
  exact h.keysNonblank p hp hps

/-- The batch sizes after one more observation of a word that had count `c`. -/
theorem countAt_mapStore (wc : wordCounter) (h : Inv wc) (t : String) :
    countAt (mapStore wc.wordsHistogram t (histGet wc t + 1)) =
      dropCnt (bumpCnt (countAt wc.wordsHistogram) (histGet wc t + 1)) (histGet wc t) := by
  funext g
  have hzero : countAt wc.wordsHistogram 0 = 0 := by
    unfold countAt
    rw [List.countP_eq_zero]
    intro p hp
    have := h.countsPos p hp
    simp only [decide_eq_true_eq]
    omega
  cases hl : mapLookup wc.wordsHistogram t with
  | none =>
    have hc : histGet wc t = 0 := by simp [histGet, hl]
    have := countP_mapStore_none (fun p : String × Int => decide (p.2 = g))
      wc.wordsHistogram t (histGet wc t + 1) hl
    unfold countAt at hzero ⊢
    rw [this, hc]
    simp only [dropCnt, bumpCnt, decide_eq_true_eq]
    by_cases hg0 : g = 0
    · subst hg0
      simp [hzero]
    · by_cases hg1 : g = 1
      · subst hg1
        simp
      · have : ¬ ((1 : Int) = g) := by omega
        simp [hg0, hg1, this]
  | some c =>
    have hc : histGet wc t = c := by simp [histGet, hl]
    have := countP_mapStore_some (fun p : String × Int => decide (p.2 = g))
      wc.wordsHistogram t (histGet wc t + 1) c hl
    unfold countAt
    rw [hc] at this ⊢
    simp only [dropCnt, bumpCnt, decide_eq_true_eq] at this ⊢
    by_cases hgc : g = c
    · subst hgc
      have h1 : ¬ (g + 1 = g) := by omega
      have h2 : ¬ (g = g + 1) := by omega
      simp only [h1, h2, if_true, if_false] at this ⊢
      omega
    · have h1 : ¬ (c = g) := fun e => hgc e.symm
      by_cases hg1 : g = c + 1
      · subst hg1
        simp only [h1, hgc, if_true, if_false] at this ⊢
        omega
      · have h2 : ¬ (c + 1 = g) := fun e => hg1 e.symm
        simp only [h1, h2, hgc, hg1, if_false] at this ⊢
        omega

theorem countAt_pos_of_lookup (hist : List (String × Int)) (t : String) (c : Int)
    (h : mapLookup hist t = some c) : 1 ≤ countAt hist c := by
  unfold countAt
  have : 0 < List.countP (fun p : String × Int => decide (p.2 = c)) hist := by
    rw [List.countP_pos_iff]
    exact ⟨(t, c), mapLookup_mem _ _ _ h, by simp⟩
  omega

theorem histGet_withCount (wc : wordCounter) (t s : String) :
    histGet (withCount wc t) s = if t = s then histGet wc t + 1 else histGet wc s := by
  unfold withCount histGet
  simp only [mapLookup_mapStore]
  split_ifs <;> rfl

theorem updateTop5_cases (wc : wordCounter) (word : String) (f : Int) :
    ∃ j, LowestMinSlot wc j ∧
      ((((∃ i, wc.top5 i = word) ∨ f ≤ histGet wc (wc.top5 j)) ∧
          updateTop5 wc word f = .ok wc) ∨
        ((∀ i, wc.top5 i ≠ word) ∧ histGet wc (wc.top5 j) < f ∧
          updateTop5 wc word f = .ok { wc with top5 := Function.update wc.top5 j word })) := by
  obtain ⟨-, j, -, -, hj⟩ := top5Scan_spec wc word
  obtain ⟨h1, h2⟩ := updateTop5_spec wc word f
  refine ⟨j, hj, ?_⟩
  by_cases hin : ∃ i, wc.top5 i = word
  · exact Or.inl ⟨Or.inl hin, h1 hin⟩
  · have hno : ∀ i, wc.top5 i ≠ word := fun i hi => hin ⟨i, hi⟩
    by_cases hf : histGet wc (wc.top5 j) < f
    · exact Or.inr ⟨hno, hf, (h2 hno j hj).1 hf⟩
    · exact Or.inl ⟨Or.inr (by omega), (h2 hno j hj).2 (by omega)⟩

/-- The slots after `updateTop5` still hold distinct recorded words, and an empty slot remains
only while every recorded word has a slot. -/
theorem updateTop5_slots (wc : wordCounter) (h : Inv wc) (t : String) (ht : t ≠ "") :
    ∃ tp, updateTop5 (withCount wc t) t (histGet wc t + 1) =
        .ok { withCount wc t with top5 := tp } ∧
      (∀ i, tp i = "" ∨ tp i ∈ (withCount wc t).wordsHistogram.map Prod.fst) ∧
      (∀ i j, tp i = tp j → tp i ≠ "" → i = j) ∧
      (∀ i, tp i = "" → ∀ p ∈ (withCount wc t).wordsHistogram, ∃ j, tp j = p.1) := by
  have hc0 : 0 ≤ histGet wc t := histGet_nonneg wc h t
  have hkeys : ∀ s, s ∈ (withCount wc t).wordsHistogram.map Prod.fst ↔
      s = t ∨ s ∈ wc.wordsHistogram.map Prod.fst := fun s => mem_keys_mapStore _ _ _ _
  have hmem : ∀ p ∈ (withCount wc t).wordsHistogram, p.1 = t ∨ p ∈ wc.wordsHistogram := by
    intro p hp
    rcases mem_mapStore _ _ _ p hp with hp | hp
    · left
      rw [hp]
    · exact Or.inr hp
  have hblank : ∀ i, wc.top5 i = "" → histGet (withCount wc t) (wc.top5 i) = 0 := by
    intro i hi
    rw [hi, histGet_withCount, if_neg ht, histGet_blank wc h]
  have hfilled : ∀ i, wc.top5 i ≠ "" → 1 ≤ histGet (withCount wc t) (wc.top5 i) := by
    intro i hi
    rw [histGet_withCount]
    split_ifs with hti
    · omega
    · rcases h.slotsKnown i with hk | hk
      · exact absurd hk hi
      · exact histGet_pos_of_mem wc h _ hk
  have htop : (withCount wc t).top5 = wc.top5 := rfl
  obtain ⟨j, hj, hcase⟩ := updateTop5_cases (withCount wc t) t (histGet wc t + 1)
  rw [htop] at hcase
  rcases hcase with ⟨hkeep, hres⟩ | ⟨hno, hlt, hres⟩
  · refine ⟨wc.top5, hres, ?_, h.slotsDistinct, ?_⟩
    · intro i
      rcases h.slotsKnown i with hk | hk
      · exact Or.inl hk
      · exact Or.inr ((hkeys _).mpr (Or.inr hk))
    · intro i hi p hp
      rcases hmem p hp with hp | hp
      · rcases hkeep with ⟨k, hk⟩ | hle
        · exact ⟨k, hk.trans hp.symm⟩
        · have h1 := hj.1 i
          rw [htop, hblank i hi] at h1
          omega
      · exact h.slotsFull i hi p hp
  · refine ⟨Function.update wc.top5 j t, hres, ?_, ?_, ?_⟩
    · intro i
      by_cases hij : i = j
      · subst hij
        simp only [Function.update_same]
        exact Or.inr ((hkeys _).mpr (Or.inl rfl))
      · rw [Function.update_noteq hij]
        rcases h.slotsKnown i with hk | hk
        · exact Or.inl hk
        · exact Or.inr ((hkeys _).mpr (Or.inr hk))
    · intro a b hab hne
      by_cases haj : a = j <;> by_cases hbj : b = j
      · rw [haj, hbj]
      · subst haj
        rw [Function.update_same, Function.update_noteq hbj] at hab
        exact absurd hab.symm (hno b)
      · subst hbj
        rw [Function.update_same, Function.update_noteq haj] at hab
        exact absurd hab (hno a)
      · rw [Function.update_noteq haj] at hab hne
        rw [Function.update_noteq hbj] at hab
        exact h.slotsDistinct a b hab hne
    · intro i hi p hp
      have hij : i ≠ j := by
        intro e
        subst e
        rw [Function.update_same] at hi
        exact ht hi
      rw [Function.update_noteq hij] at hi
      have hjb : wc.top5 j = "" := by
        by_contra hne
        have h1 := hfilled j hne
        have h2 := hj.1 i
        rw [htop, hblank i hi] at h2
        omega
      rcases hmem p hp with hp | hp
      · exact ⟨j, by rw [Function.update_same, hp]⟩
      · obtain ⟨k, hk⟩ := h.slotsFull i hi p hp
        have hkj : k ≠ j := by
          intro e
          subst e
          exact h.keysNonblank p hp (hk.symm.trans hjb)
        exact ⟨k, by rw [Function.update_noteq hkj, hk]⟩

/-- One call of `CountWord` with a non-blank word succeeds and keeps the invariant. -/
theorem CountWord_step (wc : wordCounter) (w : String) (h : Inv wc) (hw : TrimSpace w ≠ "") :
    ∃ wc', CountWord wc w = .ok wc' ∧ Inv wc' ∧
      wc'.wordsHistogram =
        mapStore wc.wordsHistogram (TrimSpace w) (histGet wc (TrimSpace w) + 1) ∧
      updateTop5 (withCount wc (TrimSpace w)) (TrimSpace w) (histGet wc (TrimSpace w) + 1) =
        .ok { withCount wc (TrimSpace w) with top5 := wc'.top5 } := by
  obtain ⟨tp, htp, hs1, hs2, hs3⟩ := updateTop5_slots wc h (TrimSpace w) hw
  have hm : MarkersOK (countAt wc.wordsHistogram)
      ({ withCount wc (TrimSpace w) with top5 := tp } : wordCounter).sortedFrequencies
      ({ withCount wc (TrimSpace w) with top5 := tp } : wordCounter).markers := h.markersOK
  have hc : histGet wc (TrimSpace w) = 0 ∨
      1 ≤ countAt wc.wordsHistogram (histGet wc (TrimSpace w)) := by
    cases hl : mapLookup wc.wordsHistogram (TrimSpace w) with
    | none => exact Or.inl (by simp [histGet, hl])
    | some c =>
      right
      have : histGet wc (TrimSpace w) = c := by simp [histGet, hl]
      rw [this]
      exact countAt_pos_of_lookup _ _ _ hl
  obtain ⟨l, mk, hum, hok⟩ := updateMarkers_ok _ (histGet wc (TrimSpace w)) hm hc
  refine ⟨⟨mapStore wc.wordsHistogram (TrimSpace w) (histGet wc (TrimSpace w) + 1), l, mk, tp⟩,
    ?_, ?_, ?_, ?_⟩
  · rw [CountWord_nonblank wc w hw]
    unfold updateState
    change (match updateTop5 (withCount wc (TrimSpace w)) (TrimSpace w)
      (histGet wc (TrimSpace w) + 1) with
      | Except.error f => Except.error f
      | Except.ok wc1 => updateMarkers wc1 (histGet wc (TrimSpace w) + 1)) = _
    rw [htp]
    exact hum
  · refine ⟨?_, ?_, ?_, ?_, hs1, hs2, hs3⟩
    · exact mapStore_keys_nodup _ _ _ h.keysNodup
    · intro p hp
      rcases mem_mapStore _ _ _ p hp with hp | hp
      · rw [hp]
        have := histGet_nonneg wc h (TrimSpace w)
        simp only
        omega
      · exact h.countsPos p hp
    · intro p hp
      rcases mem_mapStore _ _ _ p hp with hp | hp
      · rw [hp]
        exact hw
      · exact h.keysNonblank p hp
    · have := countAt_mapStore wc h (TrimSpace w)
      show MarkersOK (countAt (mapStore _ _ _)) l mk
      rw [this]
      exact hok
  · rfl
  · exact htp

theorem Inv_New : Inv New := by
  refine ⟨by simp [New], by simp [New], by simp [New], ?_, by simp [New], ?_, by simp [New]⟩
  · refine ⟨by simp [New, LinkedList.New], by simp [New, LinkedList.New],
      by simp [New, LinkedList.New, Ascending], by simp [New, LinkedList.New], ?_, ?_, ?_⟩
    · intro f m hm
      simp [New, mapLookup] at hm
    · intro f hf
      simp [New, countAt] at hf
    · intro f hf
      simp [New, countAt] at hf
  · intro i j _ hne
    exact absurd rfl hne

/-- Every call of `CountWord` on a state satisfying the invariant succeeds and keeps it. -/
theorem CountWord_inv (wc : wordCounter) (w : String) (h : Inv wc) :
    ∃ wc', CountWord wc w = .ok wc' ∧ Inv wc' := by
  by_cases hw : TrimSpace w = ""
  · exact ⟨wc, CountWord_blank wc w hw, h⟩
  · obtain ⟨wc', h1, h2, -⟩ := CountWord_step wc w h hw
    exact ⟨wc', h1, h2⟩

theorem countWords_inv (ws : List String) (wc : wordCounter) (h : Inv wc) :
    ∃ wc', countWords wc ws = .ok wc' ∧ Inv wc' := by
  induction ws generalizing wc with
  | nil => exact ⟨wc, rfl, h⟩
  | cons w ws ih =>
    obtain ⟨wc1, h1, h2⟩ := CountWord_inv wc w h
    obtain ⟨wc2, h3, h4⟩ := ih wc1 h2
    exact ⟨wc2, by simp [countWords, h1, h3], h4⟩

theorem Reachable.inv {wc : wordCounter} (h : Reachable wc) : Inv wc := by
  obtain ⟨ws, hws⟩ := h
  obtain ⟨wc', h1, h2⟩ := countWords_inv ws New Inv_New
  rw [hws] at h1
  cases h1
  exact h2

/-! ## The histogram along a call sequence -/

theorem countWords_append (ws ws' : List String) (wc : wordCounter) :
    countWords wc (ws ++ ws') =
      match countWords wc ws with
      | Except.error f => Except.error f
      | Except.ok wc1 => countWords wc1 ws' := by
  induction ws generalizing wc with
  | nil => rfl
  | cons w ws ih =>
    simp only [List.cons_append, countWords]
    cases CountWord wc w with
    | error f => rfl
    | ok wc1 => exact ih wc1

theorem countWords_hist (ws : List String) (wc : wordCounter) (h : Inv wc) :
    ∃ wc', countWords wc ws = .ok wc' ∧ Inv wc' ∧
      ∀ t, t ≠ "" → histGet wc' t =
        histGet wc t + (ws.countP (fun w => decide (TrimSpace w = t)) : Nat) := by
  induction ws generalizing wc with
  | nil => exact ⟨wc, rfl, h, by simp⟩
  | cons w ws ih =>
    by_cases hw : TrimSpace w = ""
    · obtain ⟨wc2, h3, h4, h5⟩ := ih wc h
      refine ⟨wc2, by simp [countWords, CountWord_blank wc w hw, h3], h4, ?_⟩
      intro t ht
      have hne : ¬ TrimSpace w = t := fun e => ht (e.symm.trans hw)
      rw [h5 t ht, List.countP_cons]
      simp [hne]
    · obtain ⟨wc1, h1, h2, hh, -⟩ := CountWord_step wc w h hw
      obtain ⟨wc2, h3, h4, h5⟩ := ih wc1 h2
      refine ⟨wc2, by simp [countWords, h1, h3], h4, ?_⟩
      intro t ht
      have hg : histGet wc1 t = if TrimSpace w = t then histGet wc (TrimSpace w) + 1
          else histGet wc t := by
        unfold histGet
        rw [hh, mapLookup_mapStore]
        split_ifs <;> rfl
      rw [h5 t ht, hg, List.countP_cons]
      by_cases hwt : TrimSpace w = t
      · subst hwt
        simp only [if_true, decide_True]
        push_cast
        omega
      · simp only [hwt, if_false, decide_False]
        simp

theorem keys_perm_distinctWords (ws : List String) (wc : wordCounter)
    (hrun : countWords New ws = .ok wc) :
    (wc.wordsHistogram.map Prod.fst).Perm (distinctWords ws) := by
  obtain ⟨wc', h1, h2, h3⟩ := countWords_hist ws New Inv_New
  rw [hrun] at h1
  cases h1
  unfold distinctWords
  rw [List.perm_ext_iff_of_nodup h2.keysNodup (List.nodup_dedup _)]
  intro t
  rw [mem_keys_iff_pos wc h2]
  rw [List.mem_dedup, List.mem_filter, List.mem_map]
  by_cases ht : t = ""
  · subst ht
    rw [histGet_blank wc h2]
    simp
  · rw [h3 t ht]
    have h0 : histGet New t = 0 := by simp [histGet, New, mapLookup]
    rw [h0]
    constructor
    · intro hp
      have : 0 < ws.countP (fun w => decide (TrimSpace w = t)) := by omega
      obtain ⟨w, hw, hwt⟩ := List.countP_pos_iff.mp this
      exact ⟨⟨w, hw, by simpa using hwt⟩, by simpa using ht⟩
    · rintro ⟨⟨w, hw, hwt⟩, -⟩
      have : 0 < ws.countP (fun w => decide (TrimSpace w = t)) :=
        List.countP_pos_iff.mpr ⟨w, hw, by simpa using hwt⟩
      omega

/-! ## The result of TopFiveFrequentWords -/

theorem topFive_fold (wc : wordCounter) (l : List (Fin 5)) (acc : List (String × Int))
    (h0 : ∀ i ∈ l, histGet wc (wc.top5 i) ≠ 0 ↔ wc.top5 i ≠ "")
    (hn : (acc.map Prod.fst ++
      (l.filter (fun i => decide (wc.top5 i ≠ ""))).map wc.top5).Nodup) :
    List.foldl (fun res i =>
        if histGet wc (wc.top5 i) ≠ 0 then mapStore res (wc.top5 i) (histGet wc (wc.top5 i))
        else res) acc l =
      acc ++ (l.filter (fun i => decide (wc.top5 i ≠ ""))).map
        (fun i => (wc.top5 i, histGet wc (wc.top5 i))) := by
  induction l generalizing acc with
  | nil => simp
  | cons i l ih =>
    have h0' : ∀ j ∈ l, histGet wc (wc.top5 j) ≠ 0 ↔ wc.top5 j ≠ "" :=
      fun j hj => h0 j (List.mem_cons_of_mem _ hj)
    simp only [List.foldl_cons]
    by_cases hi : wc.top5 i = ""
    · have hz : ¬ histGet wc (wc.top5 i) ≠ 0 := by
        rw [h0 i (List.mem_cons_self _ _)]
        exact fun hne => hne hi
      have hf : List.filter (fun i => decide (wc.top5 i ≠ "")) (i :: l) =
          List.filter (fun i => decide (wc.top5 i ≠ "")) l := by
        simp [List.filter_cons, hi]
      rw [if_neg hz, hf]
      rw [hf] at hn
      exact ih acc h0' hn
    · have hz : histGet wc (wc.top5 i) ≠ 0 := (h0 i (List.mem_cons_self _ _)).mpr hi
      have hf : List.filter (fun i => decide (wc.top5 i ≠ "")) (i :: l) =
          i :: List.filter (fun i => decide (wc.top5 i ≠ "")) l := by
        simp [List.filter_cons, hi]
      rw [if_pos hz, hf]
      rw [hf, List.map_cons] at hn
      have hnot : wc.top5 i ∉ acc.map Prod.fst := by
        intro hm
        have := (List.nodup_append.mp hn).2.2
        exact this hm (List.mem_cons_self _ _) 
      rw [mapStore_of_not_mem acc _ _ hnot]
      rw [ih _ h0' (by simpa [List.append_assoc] using hn)]
      simp

theorem Inv.slot_count_iff {wc : wordCounter} (h : Inv wc) (i : Fin 5) :
    histGet wc (wc.top5 i) ≠ 0 ↔ wc.top5 i ≠ "" := by
  constructor
  · intro hz hb
    rw [hb, histGet_blank wc h] at hz
    exact hz rfl
  · intro hb
    rcases h.slotsKnown i with hk | hk
    · exact absurd hk hb
    · have := histGet_pos_of_mem wc h _ hk
      omega

theorem Inv.occupied_nodup {wc : wordCounter} (h : Inv wc) :
    ((occupiedSlots wc).map wc.top5).Nodup := by
  apply List.Nodup.map_on
  · intro x hx y _ hxy
    have hx' : wc.top5 x ≠ "" := by
      have := (List.mem_filter.mp hx).2
      simpa using this
    exact h.slotsDistinct x y hxy hx'
  · exact (List.nodup_finRange 5).filter _

/-- Under the invariant the result lists the occupied slots, each with its live count. -/
theorem Inv.topFive_eq {wc : wordCounter} (h : Inv wc) :
    TopFiveFrequentWords wc =
      (occupiedSlots wc).map (fun i => (wc.top5 i, histGet wc (wc.top5 i))) := by
  unfold TopFiveFrequentWords
  have hn := h.occupied_nodup
  unfold occupiedSlots at hn ⊢
  rw [topFive_fold wc (List.finRange 5) [] (fun i _ => h.slot_count_iff i)
    (by simpa using hn)]
  rfl

theorem occupiedSlots_length_le (wc : wordCounter) : (occupiedSlots wc).length ≤ 5 := by
  have := List.length_filter_le (fun i => decide (wc.top5 i ≠ "")) (List.finRange 5)
  simpa [occupiedSlots] using this

/-- The number of occupied slots is the number of recorded words, capped at five. -/
theorem Inv.occupied_length {wc : wordCounter} (h : Inv wc) :
    (occupiedSlots wc).length = min 5 wc.wordsHistogram.length := by
  have hsub : (occupiedSlots wc).map wc.top5 ⊆ wc.wordsHistogram.map Prod.fst := by
    intro s hs
    obtain ⟨i, hi, his⟩ := List.mem_map.mp hs
    have hne : wc.top5 i ≠ "" := by
      have := (List.mem_filter.mp hi).2
      simpa using this
    rcases h.slotsKnown i with hk | hk
    · exact absurd hk hne
    · rwa [his] at hk
  have hle : (occupiedSlots wc).length ≤ wc.wordsHistogram.length := by
    have := (List.subperm_of_subset h.occupied_nodup hsub).length_le
    simpa using this
  have h5 := occupiedSlots_length_le wc
  by_cases hall : ∀ i, wc.top5 i ≠ ""
  · have : occupiedSlots wc = List.finRange 5 := by
      unfold occupiedSlots
      rw [List.filter_eq_self]
      intro i _
      simpa using hall i
    rw [this] at hle ⊢
    simp only [List.length_finRange] at hle ⊢
    omega
  · push_neg at hall
    obtain ⟨i, hi⟩ := hall
    have hsup : wc.wordsHistogram.map Prod.fst ⊆ (occupiedSlots wc).map wc.top5 := by
      intro s hs
      obtain ⟨p, hp, hps⟩ := List.mem_map.mp hs
      obtain ⟨j, hj⟩ := h.slotsFull i hi p hp
      refine List.mem_map.mpr ⟨j, ?_, hj.trans hps⟩
      unfold occupiedSlots
      rw [List.mem_filter]
      refine ⟨List.mem_finRange j, ?_⟩
      have := h.keysNonblank p hp
      simpa [hj] using this
    have hge : wc.wordsHistogram.length ≤ (occupiedSlots wc).length := by
      have := (List.subperm_of_subset h.keysNodup hsup).length_le
      simpa using this
    have hlt : (occupiedSlots wc).length < 5 := by
      by_contra hnot
      have hlen : (occupiedSlots wc).length = (List.finRange 5).length := by
        simp only [List.length_finRange]
        omega
      have : occupiedSlots wc = List.finRange 5 :=
        (List.filter_sublist _).eq_of_length hlen
      have hmem : i ∈ occupiedSlots wc := by
        rw [this]
        exact List.mem_finRange i
      have := (List.mem_filter.mp hmem).2
      simp [hi] at this
    omega

/-! ## LowestFrequency -/

theorem countAt_pos_iff (hist : List (String × Int)) (f : Int) :
    1 ≤ countAt hist f ↔ ∃ p ∈ hist, p.2 = f := by
  unfold countAt
  have : 1 ≤ List.countP (fun p : String × Int => decide (p.2 = f)) hist ↔
      0 < List.countP (fun p : String × Int => decide (p.2 = f)) hist := by omega
  rw [this, List.countP_pos_iff]
  simp

theorem Inv.elems_nil_iff {wc : wordCounter} (h : Inv wc) :
    wc.sortedFrequencies.elems = [] ↔ wc.wordsHistogram = [] := by
  constructor
  · intro he
    by_contra hne
    obtain ⟨p, hp⟩ := List.exists_mem_of_ne_nil _ hne
    obtain ⟨e, hem, -⟩ := h.markersOK.ofCount p.2 ((countAt_pos_iff _ _).mpr ⟨p, hp, rfl⟩)
    rw [he] at hem
    simp at hem
  · intro hh
    by_contra hne
    obtain ⟨e, he⟩ := List.exists_mem_of_ne_nil _ hne
    obtain ⟨p, hp, -⟩ := (countAt_pos_iff _ _).mp (h.markersOK.ofElem e he).2
    rw [hh] at hp
    simp at hp

theorem LowestFrequency_cons (wc : wordCounter) (e : Element) (l : List Element)
    (h : wc.sortedFrequencies.elems = e :: l) : LowestFrequency wc = e.Value := by
  simp [LowestFrequency, LinkedList.Len, LinkedList.Front, h]
  intro h0
  omega

theorem Inv.lowest {wc : wordCounter} (h : Inv wc) :
    (wc.wordsHistogram = [] → LowestFrequency wc = 0) ∧
    (wc.wordsHistogram ≠ [] →
      (∃ p ∈ wc.wordsHistogram, p.2 = LowestFrequency wc) ∧
      ∀ p ∈ wc.wordsHistogram, LowestFrequency wc ≤ p.2) := by
  constructor
  · intro hh
    have := h.elems_nil_iff.mpr hh
    simp [LowestFrequency, LinkedList.Len, this]
  · intro hh
    have hne : wc.sortedFrequencies.elems ≠ [] := fun e => hh (h.elems_nil_iff.mp e)
    obtain ⟨e, l, hel⟩ := List.exists_cons_of_ne_nil hne
    rw [LowestFrequency_cons wc e l hel]
    have hmem : e ∈ wc.sortedFrequencies.elems := by simp [hel]
    refine ⟨(countAt_pos_iff _ _).mp (h.markersOK.ofElem e hmem).2, ?_⟩
    intro p hp
    obtain ⟨x, hx, hxv⟩ := h.markersOK.ofCount p.2 ((countAt_pos_iff _ _).mpr ⟨p, hp, rfl⟩)
    have hasc := h.markersOK.ascending
    unfold Ascending at hasc
    rw [hel, List.pairwise_cons] at hasc
    rw [hel] at hx
    rcases List.mem_cons.mp hx with hx | hx
    · rw [← hxv, hx]
    · have := hasc.1 x hx
      omega

/-! ## MedianFrequency -/

theorem expand_append (cnt : Int → Nat) (a b : List Element) :
    expand cnt (a ++ b) = expand cnt a ++ expand cnt b := by
  induction a with
  | nil => rfl
  | cons e a ih => simp [expand, ih]

theorem mem_expand (cnt : Int → Nat) (l : List Element) (a : Int) (h : a ∈ expand cnt l) :
    ∃ e ∈ l, e.Value = a := by
  induction l with
  | nil => simp [expand] at h
  | cons e l ih =>
    simp only [expand, List.mem_append] at h
    rcases h with h | h
    · exact ⟨e, List.mem_cons_self _ _, (List.eq_of_mem_replicate h).symm⟩
    · obtain ⟨x, hx, hxv⟩ := ih h
      exact ⟨x, List.mem_cons_of_mem _ hx, hxv⟩

theorem expand_sorted (cnt : Int → Nat) (l : List Element) (h : Ascending l) :
    List.Sorted (fun a b => a ≤ b) (expand cnt l) := by
  induction l with
  | nil => simp [expand]
  | cons e l ih =>
    unfold Ascending at h ih
    rw [List.pairwise_cons] at h
    unfold List.Sorted at ih ⊢
    simp only [expand]
    rw [List.pairwise_append]
    refine ⟨?_, ih h.2, ?_⟩
    · rw [List.pairwise_replicate]
      exact Or.inr (le_refl _)
    · intro a ha b hb
      obtain ⟨x, hx, hxv⟩ := mem_expand cnt l b hb
      have := h.1 x hx
      rw [List.eq_of_mem_replicate ha]
      omega

theorem count_expand (cnt : Int → Nat) (l : List Element) (h : Ascending l) (a : Int) :
    List.count a (expand cnt l) = if a ∈ l.map Element.Value then cnt a else 0 := by
  induction l with
  | nil => simp [expand]
  | cons e l ih =>
    unfold Ascending at h ih
    rw [List.pairwise_cons] at h
    simp only [expand, List.count_append, List.count_replicate, ih h.2, List.map_cons,
      List.mem_cons, beq_iff_eq]
    by_cases hea : e.Value = a
    · have hnot : a ∉ l.map Element.Value := by
        intro hm
        obtain ⟨x, hx, hxv⟩ := List.mem_map.mp hm
        have := h.1 x hx
        omega
      simp [hea, hnot]
    · have hea' : ¬ a = e.Value := fun e => hea e.symm
      simp [hea, hea']

theorem counts_perm_expand (hist : List (String × Int)) (l : LinkedList)
    (mk : List (Int × Marker)) (h : MarkersOK (countAt hist) l mk) :
    (hist.map Prod.snd).Perm (expand (countAt hist) l.elems) := by
  rw [List.perm_iff_count]
  intro a
  rw [count_expand _ _ h.ascending, List.count_eq_countP, List.countP_map]
  have hc : List.countP ((fun x => x == a) ∘ Prod.snd) hist = countAt hist a := by
    unfold countAt
    congr 1
  rw [hc]
  split_ifs with hm
  · rfl
  · by_contra hne
    obtain ⟨e, he, hev⟩ := h.ofCount a (by omega)
    exact hm (List.mem_map.mpr ⟨e, he, hev⟩)

theorem sorted_counts_eq_expand (hist : List (String × Int)) (l : LinkedList)
    (mk : List (Int × Marker)) (h : MarkersOK (countAt hist) l mk) :
    List.insertionSort (fun a b => a ≤ b) (hist.map Prod.snd) = expand (countAt hist) l.elems :=
  List.eq_of_perm_of_sorted
    ((List.perm_insertionSort _ _).trans (counts_perm_expand hist l mk h))
    (List.sorted_insertionSort _ _) (expand_sorted _ _ h.ascending)

theorem getD_replicate_append (n : Nat) (a : Int) (l : List Int) (i : Nat) (h : i < n) :
    (List.replicate n a ++ l).getD i 0 = a := by
  rw [List.getD_append _ _ _ _ (by simpa using h), List.getD_eq_getElem _ _ (by simpa using h),
    List.getElem_replicate]

theorem medianLoop_done (wc : wordCounter) (mi : Int) (fuel : Nat) (idx : Int) (iter : Element)
    (h : ¬ idx < mi) : medianLoop wc mi fuel idx iter = .ok iter.Value := by
  cases fuel <;> simp [medianLoop, h]

/-- The walk of `MedianFrequency`: standing on element `e` with `idx` the index of the last
entry of its batch, the loop stops at the element whose batch holds index `k`. -/
theorem medianLoop_spec (wc : wordCounter) (cnt : Int → Nat)
    (hm : MarkersOK cnt wc.sortedFrequencies wc.markers) (k : Nat)
    (hk : k < (expand cnt wc.sortedFrequencies.elems).length)
    (post : List Element) :
    ∀ (pre : List Element) (e : Element) (fuel : Nat) (idx : Int),
      wc.sortedFrequencies.elems = pre ++ e :: post →
      post.length ≤ fuel →
      (expand cnt pre).length ≤ k →
      idx = (((expand cnt pre).length + cnt e.Value : Nat) : Int) - 1 →
      medianLoop wc (k : Int) fuel idx e =
        .ok ((expand cnt wc.sortedFrequencies.elems).getD k 0) := by
  induction post with
  | nil =>
    intro pre e fuel idx hE _ hk1 hidx
    have hlen : (expand cnt wc.sortedFrequencies.elems).length =
        (expand cnt pre).length + cnt e.Value := by
      rw [hE, expand_append]
      simp [expand]
    have hnot : ¬ idx < (k : Int) := by omega
    rw [medianLoop_done wc _ fuel idx e hnot, hE, expand_append,
      List.getD_append_right _ _ _ _ hk1]
    simp only [expand]
    rw [getD_replicate_append _ _ _ _ (by omega)]
  | cons e' post ih =>
    intro pre e fuel idx hE hfuel hk1 hidx
    by_cases hlt : idx < (k : Int)
    · obtain ⟨fuel', rfl⟩ : ∃ f', fuel = f' + 1 := by
        cases fuel with
        | zero => simp at hfuel
        | succ f' => exact ⟨f', rfl⟩
      have hpre : ∀ x ∈ pre, x.addr ≠ e.addr := by
        intro x hx hxa
        have hn := hm.addrNodup
        rw [hE, List.map_append, List.map_cons] at hn
        have := (List.nodup_append.mp hn).2.2
        exact this (List.mem_map_of_mem _ hx) (by simp [hxa])
      have hnext : wc.sortedFrequencies.Next e = some e' := by
        unfold LinkedList.Next
        rw [hE, LinkedList.nextOf_append pre _ e hpre]
        rfl
      have hmem : e' ∈ wc.sortedFrequencies.elems := by simp [hE]
      have hlk := (hm.ofElem e' hmem).1
      have hE' : wc.sortedFrequencies.elems = (pre ++ [e]) ++ e' :: post := by
        simp [hE]
      have hlen' : (expand cnt (pre ++ [e])).length = (expand cnt pre).length + cnt e.Value := by
        rw [expand_append]
        simp [expand]
      simp only [medianLoop, hlt, if_true, hnext, hlk]
      refine ih (pre ++ [e]) e' fuel' _ hE' (by simpa using hfuel) (by omega) ?_
      rw [hlen', hidx]
      push_cast
      omega
    · rw [medianLoop_done wc _ fuel idx e hlt, hE, expand_append,
        List.getD_append_right _ _ _ _ hk1]
      simp only [expand]
      rw [getD_replicate_append _ _ _ _ (by omega)]

/-- Under the invariant, `MedianFrequency` returns the brute-force lower median as soon as
the bound on its loop is at least the number of distinct frequencies. -/
theorem Inv.median {wc : wordCounter} (h : Inv wc) (fuel : Nat)
    (hfuel : wc.sortedFrequencies.elems.length ≤ fuel) :
    MedianFrequency fuel wc = .ok (bruteForceMedian wc.wordsHistogram) := by
  by_cases hh : wc.wordsHistogram = []
  · have := h.elems_nil_iff.mpr hh
    simp [MedianFrequency, LinkedList.Len, this, bruteForceMedian, hh]
  · have hne : wc.sortedFrequencies.elems ≠ [] := fun e => hh (h.elems_nil_iff.mp e)
    obtain ⟨e, l, hel⟩ := List.exists_cons_of_ne_nil hne
    have hmem : e ∈ wc.sortedFrequencies.elems := by simp [hel]
    have hlk := (h.markersOK.ofElem e hmem).1
    have hsort := sorted_counts_eq_expand _ _ _ h.markersOK
    have hlen : (expand (countAt wc.wordsHistogram) wc.sortedFrequencies.elems).length =
        wc.wordsHistogram.length := by
      rw [← hsort, List.length_insertionSort, List.length_map]
    have hpos : 0 < wc.wordsHistogram.length := List.length_pos.mpr hh
    have hlen0 : ¬ wc.sortedFrequencies.Len = 0 := by
      simp [LinkedList.Len, hel]
      omega
    have hdiv : Int.tdiv (mapLen wc.wordsHistogram) 2 =
        ((wc.wordsHistogram.length / 2 : Nat) : Int) := rfl
    simp only [MedianFrequency, hlen0, if_false, LowestFrequency_cons wc e l hel, hlk, hdiv]
    unfold bruteForceMedian
    rw [hsort]
    refine medianLoop_spec wc _ h.markersOK _ (by rw [hlen]; omega) l [] e fuel _ hel
      (by rw [hel] at hfuel; simp at hfuel; omega) (by simp [expand]) (by simp [expand])

theorem LinkedList.spliceAfter_append (e x : Element) (pre post : List Element)
    (h : ∀ y ∈ pre, y.addr ≠ x.addr) :
    LinkedList.spliceAfter e x.addr (pre ++ x :: post) = pre ++ x :: e :: post := by
  induction pre with
  | nil => simp [LinkedList.spliceAfter]
  | cons y ys ih =>
    have hy := h y (List.mem_cons_self _ _)
    have := ih (fun z hz => h z (List.mem_cons_of_mem _ hz))
    simp only [List.cons_append, LinkedList.spliceAfter, if_neg hy]
    exact congrArg (List.cons y) this

/-- Where `addFrequency` puts the new element. -/
theorem addFrequency_shape {cnt : Int → Nat} (wc : wordCounter) (f : Int)
    (h : MarkersOK cnt wc.sortedFrequencies wc.markers) (hp : f = 1 ∨ 1 ≤ cnt (f - 1)) :
    ∃ wc', addFrequency wc f = .ok wc' ∧
      (f = 1 → wc'.sortedFrequencies.elems.map Element.Value =
        1 :: wc.sortedFrequencies.elems.map Element.Value) ∧
      (f ≠ 1 → ∃ pre post,
        wc.sortedFrequencies.elems.map Element.Value = pre ++ (f - 1) :: post ∧
        wc'.sortedFrequencies.elems.map Element.Value = pre ++ (f - 1) :: f :: post) := by
  by_cases hf : f = 1
  · subst hf
    refine ⟨_, by simp only [addFrequency, if_true]; rfl, ?_, fun hne => absurd rfl hne⟩
    intro _
    simp [LinkedList.PushFront]
  · have hc : 1 ≤ cnt (f - 1) := by
      rcases hp with hp | hp
      · exact absurd hp hf
      · exact hp
    obtain ⟨e, he, hev, hlk⟩ := h.lookup_of_count (f - 1) hc
    have hlinked : wc.sortedFrequencies.linked e.addr = true :=
      (LinkedList.linked_iff _ _).mpr ⟨e, he, rfl⟩
    obtain ⟨pre, post, hsplit⟩ := List.append_of_mem he
    have hpre : ∀ y ∈ pre, y.addr ≠ e.addr := by
      intro y hy hya
      have hn := h.addrNodup
      rw [hsplit, List.map_append, List.map_cons] at hn
      exact (List.nodup_append.mp hn).2.2 (List.mem_map_of_mem _ hy) (by simp [hya])
    refine ⟨⟨wc.wordsHistogram,
      ⟨LinkedList.spliceAfter ⟨wc.sortedFrequencies.alloc, f⟩ e.addr
        wc.sortedFrequencies.elems, wc.sortedFrequencies.alloc + 1⟩,
      mapStore wc.markers f ⟨some ⟨wc.sortedFrequencies.alloc, f⟩, 1⟩, wc.top5⟩,
      by simp [addFrequency, hf, hlk, LinkedList.InsertAfter, hlinked],
      fun h1 => absurd h1 hf, fun _ => ⟨pre.map Element.Value, post.map Element.Value, ?_, ?_⟩⟩
    · rw [hsplit]
      simp [hev]
    · simp only
      rw [hsplit, LinkedList.spliceAfter_append _ _ _ _ hpre]
      simp [hev]

theorem countWords_reach (ws : List String) :
    ∃ wc, countWords New ws = .ok wc ∧ Inv wc ∧ Reachable wc := by
  obtain ⟨wc, h1, h2⟩ := countWords_inv ws New Inv_New
  exact ⟨wc, h1, h2, ⟨ws, h1⟩⟩

theorem ascending_values {l : List Element} (h : Ascending l) :
    List.Sorted (fun a b => a < b) (l.map Element.Value) := by
  unfold List.Sorted
  rw [List.pairwise_map]
  exact h

/-! ## A test of the repository, evaluated -/

/-- The test `TestWordCounter_multipleWordsDistinctFrequencies`, evaluated on the model. -/
theorem multipleWordsDistinctFrequencies_run :
    ∃ wc, countWords New ["w0", "w0", "w1", "w3", "w2", "w0", "w4", "w4", "w5", "w0", "w3",
        "w4", "w0", "w0", "w4", "w1", "w5", "w4", "w1", "w0", "w4", "w5", "w1"] = .ok wc ∧
      LowestFrequency wc = 1 ∧ MedianFrequency 6 wc = .ok 4 ∧
      (TopFiveFrequentWords wc).length = 5 := by
  refine ⟨_, rfl, ?_, ?_, ?_⟩ <;> rfl

/-! ## The claims -/

/-- C1: after every sequence of `CountWord` calls on `New()`, `LowestFrequency` is 0 when no
word is recorded, and otherwise it is the count of some recorded word and is at most the
count of every recorded word, that is, the minimum over all current counts. -/
theorem C1_lowest_is_minimum (ws : List String) :
    ∃ wc, countWords New ws = .ok wc ∧
      (wc.wordsHistogram = [] → LowestFrequency wc = 0) ∧
      (wc.wordsHistogram ≠ [] →
        (∃ p ∈ wc.wordsHistogram, p.2 = LowestFrequency wc) ∧
        ∀ p ∈ wc.wordsHistogram, LowestFrequency wc ≤ p.2) := by
  obtain ⟨wc, h1, h2, -⟩ := countWords_reach ws
  exact ⟨wc, h1, h2.lowest⟩

/-- C2: after every sequence of `CountWord` calls on `New()`, `MedianFrequency` returns the
element at 0-based index `floor(n/2)` of the ascending sort of all per-word counts (an index
inside the sorted list whenever a word is recorded), as soon as its loop is allowed as many
iterations as there are distinct frequencies. -/
theorem C2_median_refines_brute_force (ws : List String) :
    ∃ wc, countWords New ws = .ok wc ∧
      (wc.wordsHistogram ≠ [] → wc.wordsHistogram.length / 2 <
        (List.insertionSort (fun a b => a ≤ b) (wc.wordsHistogram.map Prod.snd)).length) ∧
      ∀ fuel, wc.sortedFrequencies.elems.length ≤ fuel →
        MedianFrequency fuel wc = .ok (bruteForceMedian wc.wordsHistogram) := by
  obtain ⟨wc, h1, h2, -⟩ := countWords_reach ws
  refine ⟨wc, h1, ?_, fun fuel hf => h2.median fuel hf⟩
  intro hne
  have := List.length_pos.mpr hne
  rw [List.length_insertionSort, List.length_map]
  omega

/-- C3: in a reachable state, `CountWord` on an input whose trimmed form `t` is non-empty
succeeds, raises the count of `t` by exactly 1 (to 1 when `t` was unseen) and leaves every
other entry of the histogram as it was; after any call sequence the count of a word is the
number of observations whose trimmed form is that word, and no count decreases when the
sequence is extended. -/
theorem C3_count_increment (wc : wordCounter) (w : String) (hr : Reachable wc)
    (hw : TrimSpace w ≠ "") :
    (∃ wc', CountWord wc w = .ok wc' ∧
      mapLookup wc'.wordsHistogram (TrimSpace w) = some (histGet wc (TrimSpace w) + 1) ∧
      (mapLookup wc.wordsHistogram (TrimSpace w) = none →
        mapLookup wc'.wordsHistogram (TrimSpace w) = some 1) ∧
      (∀ u, u ≠ TrimSpace w →
        mapLookup wc'.wordsHistogram u = mapLookup wc.wordsHistogram u)) ∧
    (∀ ws : List String, ∃ s, countWords New ws = .ok s ∧
      ∀ t, t ≠ "" → histGet s t = (ws.countP (fun x => decide (TrimSpace x = t)) : Nat)) ∧
    (∀ ws ws' : List String, ∃ s s', countWords New ws = .ok s ∧
      countWords New (ws ++ ws') = .ok s' ∧ ∀ u, histGet s u ≤ histGet s' u) := by
  refine ⟨?_, ?_, ?_⟩
  · obtain ⟨wc', h1, -, h3, -⟩ := CountWord_step wc w hr.inv hw
    refine ⟨wc', h1, ?_, ?_, ?_⟩
    · rw [h3, mapLookup_mapStore, if_pos rfl]
    · intro hnone
      rw [h3, mapLookup_mapStore, if_pos rfl]
      simp [histGet, hnone]
    · intro u hu
      rw [h3, mapLookup_mapStore, if_neg (fun e => hu e.symm)]
  · intro ws
    obtain ⟨s, h1, -, h3⟩ := countWords_hist ws New Inv_New
    refine ⟨s, h1, fun t ht => ?_⟩
    rw [h3 t ht]
    simp [histGet, New, mapLookup]
  · intro ws ws'
    obtain ⟨s, h1, h2, -⟩ := countWords_hist ws New Inv_New
    obtain ⟨s', h4, h5, h6⟩ := countWords_hist ws' s h2
    refine ⟨s, s', h1, ?_, ?_⟩
    · rw [countWords_append, h1]
      exact h4
    · intro u
      by_cases hu : u = ""
      · subst hu
        rw [histGet_blank s h2, histGet_blank s' h5]
      · rw [h6 u hu]
        omega

/-- C3 at a concrete input: the first observation of `" a "` on `New()`. -/
theorem C3_count_increment_witness :
    Reachable New ∧ TrimSpace " a " ≠ "" ∧
      ∃ wc', CountWord New " a " = .ok wc' ∧
        mapLookup wc'.wordsHistogram (TrimSpace " a ") =
          some (histGet New (TrimSpace " a ") + 1) :=
  ⟨⟨[], rfl⟩, by decide,
    (C3_count_increment New " a " ⟨[], rfl⟩ (by decide)).1.imp
      (fun _ h => ⟨h.1, h.2.1⟩)⟩

/-- C4: in a reachable state, let `t` be the non-empty trimmed form of the observed word and
`c` its new count; `updateTop5` runs on the state whose histogram already holds `c`.  If `t`
occupies a slot, nothing changes.  Otherwise, with `j` the lowest slot whose occupant has the
minimal current count (an empty slot counts 0), slot `j` is overwritten with `t` when `c` is
strictly greater than that minimum, all other slots unchanged, and nothing changes when `c`
is at most that minimum; such a slot `j` always exists. -/
theorem C4_updateTop5_policy (wc : wordCounter) (w : String) (hr : Reachable wc)
    (hw : TrimSpace w ≠ "") :
    ((∃ i, wc.top5 i = TrimSpace w) →
      updateTop5 (withCount wc (TrimSpace w)) (TrimSpace w) (histGet wc (TrimSpace w) + 1) =
        .ok (withCount wc (TrimSpace w))) ∧
    ((∀ i, wc.top5 i ≠ TrimSpace w) → ∀ j, LowestMinSlot (withCount wc (TrimSpace w)) j →
      (histGet (withCount wc (TrimSpace w)) (wc.top5 j) < histGet wc (TrimSpace w) + 1 →
        updateTop5 (withCount wc (TrimSpace w)) (TrimSpace w) (histGet wc (TrimSpace w) + 1) =
          .ok { withCount wc (TrimSpace w) with
                top5 := Function.update wc.top5 j (TrimSpace w) }) ∧
      (histGet wc (TrimSpace w) + 1 ≤ histGet (withCount wc (TrimSpace w)) (wc.top5 j) →
        updateTop5 (withCount wc (TrimSpace w)) (TrimSpace w) (histGet wc (TrimSpace w) + 1) =
          .ok (withCount wc (TrimSpace w)))) ∧
    (∃ j, LowestMinSlot (withCount wc (TrimSpace w)) j) ∧
    (∀ i, wc.top5 i = "" → histGet (withCount wc (TrimSpace w)) (wc.top5 i) = 0) ∧
    (∀ i, wc.top5 i ≠ TrimSpace w →
      histGet (withCount wc (TrimSpace w)) (wc.top5 i) = histGet wc (wc.top5 i)) ∧
    (∃ wc', CountWord wc w = .ok wc' ∧
      updateTop5 (withCount wc (TrimSpace w)) (TrimSpace w) (histGet wc (TrimSpace w) + 1) =
        .ok { withCount wc (TrimSpace w) with top5 := wc'.top5 }) := by
  obtain ⟨h1, h2⟩ := updateTop5_spec (withCount wc (TrimSpace w)) (TrimSpace w)
    (histGet wc (TrimSpace w) + 1)
  refine ⟨h1, h2, ?_, ?_, ?_, ?_⟩
  · obtain ⟨-, j, -, -, hj⟩ := top5Scan_spec (withCount wc (TrimSpace w)) (TrimSpace w)
    exact ⟨j, hj⟩
  · intro i hi
    rw [hi, histGet_withCount, if_neg hw, histGet_blank wc hr.inv]
  · intro i hi
    rw [histGet_withCount, if_neg (fun e => hi e.symm)]
  · obtain ⟨wc', h3, -, -, h5⟩ := CountWord_step wc w hr.inv hw
    exact ⟨wc', h3, h5⟩

/-- C4 at a concrete input: the first observation of `"a"` on `New()` takes slot 0. -/
theorem C4_updateTop5_policy_witness :
    Reachable New ∧ TrimSpace "a" ≠ "" ∧
      updateTop5 (withCount New (TrimSpace "a")) (TrimSpace "a")
          (histGet New (TrimSpace "a") + 1) =
        .ok { withCount New (TrimSpace "a") with
              top5 := Function.update New.top5 0 (TrimSpace "a") } :=
  ⟨⟨[], rfl⟩, by decide,
    ((C4_updateTop5_policy New "a" ⟨[], rfl⟩ (by decide)).2.1 (by decide) 0
      ⟨by decide, by decide⟩).1 (by decide)⟩

/-- C5: after every sequence of `CountWord` calls on `New()`, the result of
`TopFiveFrequentWords` has at most 5 entries, each entry carries the positive current count
of its word, no word appears twice in it, and no two slots hold the same non-empty word. -/
theorem C5_topFive_bounds (ws : List String) :
    ∃ wc, countWords New ws = .ok wc ∧
      (TopFiveFrequentWords wc).length ≤ 5 ∧
      (∀ p ∈ TopFiveFrequentWords wc,
        0 < p.2 ∧ mapLookup wc.wordsHistogram p.1 = some p.2) ∧
      ((TopFiveFrequentWords wc).map Prod.fst).Nodup ∧
      ∀ i j, wc.top5 i = wc.top5 j → wc.top5 i ≠ "" → i = j := by
  obtain ⟨wc, h1, h2, -⟩ := countWords_reach ws
  refine ⟨wc, h1, ?_, ?_, ?_, h2.slotsDistinct⟩
  · rw [h2.topFive_eq, List.length_map]
    exact occupiedSlots_length_le wc
  · intro p hp
    rw [h2.topFive_eq] at hp
    obtain ⟨i, hi, hip⟩ := List.mem_map.mp hp
    have hne : wc.top5 i ≠ "" := by
      have := (List.mem_filter.mp hi).2
      simpa using this
    have hk : wc.top5 i ∈ wc.wordsHistogram.map Prod.fst := by
      rcases h2.slotsKnown i with hk | hk
      · exact absurd hk hne
      · exact hk
    have hpos := histGet_pos_of_mem wc h2 _ hk
    subst hip
    refine ⟨by simp only; omega, ?_⟩
    cases hl : mapLookup wc.wordsHistogram (wc.top5 i) with
    | none => exact absurd ((mapLookup_eq_none _ _).mp hl) (fun hn => hn hk)
    | some v => simp [histGet, hl]
  · rw [h2.topFive_eq, List.map_map]
    exact h2.occupied_nodup

/-- C6: after every sequence of `CountWord` calls on `New()`, the number of entries of
`TopFiveFrequentWords` is the minimum of 5 and the number of distinct non-blank trimmed
words observed: exactly 5 once 5 distinct words were observed, and every observed word is
in the result while fewer than 5 were. -/
theorem C6_topFive_size (ws : List String) :
    ∃ wc, countWords New ws = .ok wc ∧
      (TopFiveFrequentWords wc).length = min 5 (distinctWords ws).length ∧
      (5 ≤ (distinctWords ws).length → (TopFiveFrequentWords wc).length = 5) ∧
      ((distinctWords ws).length < 5 →
        ∀ t ∈ distinctWords ws, t ∈ (TopFiveFrequentWords wc).map Prod.fst) := by
  obtain ⟨wc, h1, h2, -⟩ := countWords_reach ws
  have hperm := keys_perm_distinctWords ws wc h1
  have hlen : (distinctWords ws).length = wc.wordsHistogram.length := by
    rw [← hperm.length_eq, List.length_map]
  have hsize : (TopFiveFrequentWords wc).length = min 5 (distinctWords ws).length := by
    rw [h2.topFive_eq, List.length_map, h2.occupied_length, hlen]
  refine ⟨wc, h1, hsize, ?_, ?_⟩
  · intro h5
    rw [hsize]
    omega
  · intro hlt t ht
    have hocc : (occupiedSlots wc).length < 5 := by
      rw [h2.occupied_length, ← hlen]
      omega
    have hempty : ∃ i, wc.top5 i = "" := by
      by_contra hall
      push_neg at hall
      have : occupiedSlots wc = List.finRange 5 := by
        unfold occupiedSlots
        rw [List.filter_eq_self]
        intro i _
        simpa using hall i
      rw [this, List.length_finRange] at hocc
      omega
    obtain ⟨i, hi⟩ := hempty
    have htk : t ∈ wc.wordsHistogram.map Prod.fst := hperm.mem_iff.mpr ht
    obtain ⟨p, hp, hpt⟩ := List.mem_map.mp htk
    obtain ⟨j, hj⟩ := h2.slotsFull i hi p hp
    rw [h2.topFive_eq, List.map_map]
    refine List.mem_map.mpr ⟨j, ?_, by simp [hj, hpt]⟩
    unfold occupiedSlots
    rw [List.mem_filter]
    refine ⟨List.mem_finRange j, ?_⟩
    have := h2.keysNonblank p hp
    simpa [hj] using this

/-- C7: in every state, reachable or not, `CountWord` on an input whose trimmed form is
empty returns the very same state (histogram, sortedFrequencies, markers and top5), and so
does any sequence of such calls; the three queries therefore answer as before. -/
theorem C7_blank_input_noop (wc : wordCounter) (w : String) (hw : TrimSpace w = "") :
    CountWord wc w = .ok wc ∧
    ∀ ws : List String, (∀ x ∈ ws, TrimSpace x = "") →
      ∃ wc', countWords wc ws = .ok wc' ∧ wc' = wc ∧
        TopFiveFrequentWords wc' = TopFiveFrequentWords wc ∧
        LowestFrequency wc' = LowestFrequency wc ∧
        ∀ fuel, MedianFrequency fuel wc' = MedianFrequency fuel wc := by
  refine ⟨CountWord_blank wc w hw, ?_⟩
  intro ws hws
  have hrun : countWords wc ws = .ok wc := by
    induction ws with
    | nil => rfl
    | cons x xs ih =>
      simp only [countWords, CountWord_blank wc x (hws x (List.mem_cons_self _ _))]
      exact ih (fun y hy => hws y (List.mem_cons_of_mem _ hy))
  exact ⟨wc, hrun, rfl, rfl, rfl, fun _ => rfl⟩

/-- C7 at a concrete input: three blanks on `New()`, then `""` and a tab. -/
theorem C7_blank_input_noop_witness :
    TrimSpace "   " = "" ∧ CountWord New "   " = .ok New ∧
      ∃ wc', countWords New ["", "\t"] = .ok wc' ∧ wc' = New :=
  ⟨by decide, (C7_blank_input_noop New "   " (by decide)).1,
    ((C7_blank_input_noop New "   " (by decide)).2 ["", "\t"] (by decide)).imp
      (fun _ h => ⟨h.1, h.2.1⟩)⟩

/-- C8: in every state `CountWord w` and `CountWord (TrimSpace w)` produce the same result;
the four spellings of `cyolo` used by the tests all trim to `cyolo` and are therefore counted
as one word. -/
theorem C8_trim_equivalence (wc : wordCounter) (w : String) :
    CountWord wc w = CountWord wc (TrimSpace w) ∧
    TrimSpace "cyolo" = "cyolo" ∧ TrimSpace "cyolo   " = "cyolo" ∧
    TrimSpace "   cyolo" = "cyolo" ∧ TrimSpace "   cyolo  " = "cyolo" ∧
    CountWord wc "cyolo   " = CountWord wc "cyolo" ∧
    CountWord wc "   cyolo" = CountWord wc "cyolo" ∧
    CountWord wc "   cyolo  " = CountWord wc "cyolo" := by
  have hgen : ∀ x, CountWord wc x = CountWord wc (TrimSpace x) := by
    intro x
    unfold CountWord
    rw [TrimSpace_idempotent]
  have e0 : TrimSpace "cyolo" = "cyolo" := by decide
  have e1 : TrimSpace "cyolo   " = "cyolo" := by decide
  have e2 : TrimSpace "   cyolo" = "cyolo" := by decide
  have e3 : TrimSpace "   cyolo  " = "cyolo" := by decide
  refine ⟨hgen w, e0, e1, e2, e3, ?_, ?_, ?_⟩
  · rw [hgen "cyolo   ", e1]
  · rw [hgen "   cyolo", e2]
  · rw [hgen "   cyolo  ", e3]

/-- C9: after every sequence of `CountWord` calls on `New()` the histogram has one entry per
word, and for every integer `f` a marker for `f` exists exactly when some word has count
`f`; its batchSize is then the number of words whose count is exactly `f`. -/
theorem C9_marker_batch_invariant (ws : List String) :
    ∃ wc, countWords New ws = .ok wc ∧
      (wc.wordsHistogram.map Prod.fst).Nodup ∧
      ∀ f : Int,
        ((mapLookup wc.markers f).isSome ↔ ∃ p ∈ wc.wordsHistogram, p.2 = f) ∧
        ∀ m, mapLookup wc.markers f = some m →
          m.batchSize = (countAt wc.wordsHistogram f : Int) ∧
          countAt wc.wordsHistogram f =
            (wc.wordsHistogram.filter (fun p => decide (p.2 = f))).length := by
  obtain ⟨wc, h1, h2, -⟩ := countWords_reach ws
  refine ⟨wc, h1, h2.keysNodup, fun f => ⟨?_, ?_⟩⟩
  · rw [h2.markersOK.lookup_iff, countAt_pos_iff]
  · intro m hm
    obtain ⟨e, he, hev⟩ := h2.markersOK.ofMarker f m hm
    have := (h2.markersOK.ofElem e he).1
    rw [hev, hm] at this
    cases this
    exact ⟨rfl, List.countP_eq_length_filter _ _⟩

/-- C10: after every sequence of `CountWord` calls on `New()`, sortedFrequencies is strictly
ascending without duplicates, its values are exactly the keys of markers, and the position of
each marker is the linked element holding the marker's own frequency.  Moreover, in such a
state `addFrequency c` for a frequency `c` without marker, with `c = 1` or a marker for
`c - 1`, succeeds and keeps the list strictly ascending, placing `c` at the front when
`c = 1` and right after `c - 1` otherwise. -/
theorem C10_sortedFrequencies_invariant (ws : List String) :
    ∃ wc, countWords New ws = .ok wc ∧
      List.Sorted (fun a b => a < b) (wc.sortedFrequencies.elems.map Element.Value) ∧
      (wc.sortedFrequencies.elems.map Element.Value).Nodup ∧
      (∀ f, f ∈ wc.sortedFrequencies.elems.map Element.Value ↔
        (mapLookup wc.markers f).isSome) ∧
      (∀ f m, mapLookup wc.markers f = some m →
        ∃ e ∈ wc.sortedFrequencies.elems, m.position = some e ∧ e.Value = f) ∧
      ∀ c, mapLookup wc.markers c = none →
        (c = 1 ∨ (mapLookup wc.markers (c - 1)).isSome) →
        ∃ wc', addFrequency wc c = .ok wc' ∧
          List.Sorted (fun a b => a < b) (wc'.sortedFrequencies.elems.map Element.Value) ∧
          (c = 1 → wc'.sortedFrequencies.elems.map Element.Value =
            1 :: wc.sortedFrequencies.elems.map Element.Value) ∧
          (c ≠ 1 → ∃ pre post,
            wc.sortedFrequencies.elems.map Element.Value = pre ++ (c - 1) :: post ∧
            wc'.sortedFrequencies.elems.map Element.Value = pre ++ (c - 1) :: c :: post) := by
  obtain ⟨wc, h1, h2, -⟩ := countWords_reach ws
  have hm := h2.markersOK
  have hsorted := ascending_values hm.ascending
  refine ⟨wc, h1, hsorted, ?_, ?_, ?_, ?_⟩
  · exact List.Pairwise.imp (fun hab => ne_of_lt hab) hsorted
  · intro f
    rw [hm.lookup_iff]
    constructor
    · intro hf
      obtain ⟨e, he, hev⟩ := List.mem_map.mp hf
      have := (hm.ofElem e he).2
      rwa [hev] at this
    · intro hf
      obtain ⟨e, he, hev⟩ := hm.ofCount f hf
      exact List.mem_map.mpr ⟨e, he, hev⟩
  · intro f m hf
    obtain ⟨e, he, hev⟩ := hm.ofMarker f m hf
    have := (hm.ofElem e he).1
    rw [hev, hf] at this
    cases this
    exact ⟨e, he, rfl, hev⟩
  · intro c hc hp
    have hz : countAt wc.wordsHistogram c = 0 := by
      by_contra hne
      have := (hm.lookup_iff c).mpr (by omega)
      simp [hc] at this
    have hp' : c = 1 ∨ 1 ≤ countAt wc.wordsHistogram (c - 1) := by
      rcases hp with hp | hp
      · exact Or.inl hp
      · exact Or.inr ((hm.lookup_iff (c - 1)).mp hp)
    obtain ⟨l, mk, hadd, hok, -⟩ := addFrequency_ok wc c hm hz hp'
    obtain ⟨wc', hadd', hs1, hs2⟩ := addFrequency_shape wc c hm hp'
    refine ⟨wc', hadd', ?_, hs1, hs2⟩
    rw [hadd] at hadd'
    cases hadd'
    exact ascending_values hok.ascending

theorem stateAfter_spec (ws : List String) : countWords New ws = .ok (stateAfter ws) := by
  obtain ⟨wc, h, -⟩ := countWords_inv ws New Inv_New
  simp [stateAfter, h]

theorem stateAfter_reachable (ws : List String) : Reachable (stateAfter ws) :=
  ⟨ws, stateAfter_spec ws⟩

theorem markCurrent_ok {cnt : Int → Nat} (wc : wordCounter) (c : Int)
    (h : MarkersOK cnt wc.sortedFrequencies wc.markers) (hc : c = 0 ∨ 1 ≤ cnt c) :
    ∃ l mk, markCurrent wc (c + 1) =
        .ok { wc with sortedFrequencies := l, markers := mk } ∧
      MarkersOK (bumpCnt cnt (c + 1)) l mk := by
  unfold markCurrent
  cases hm : mapLookup wc.markers (c + 1) with
  | none =>
    have hz : cnt (c + 1) = 0 := by
      by_contra hne
      have := (h.lookup_iff (c + 1)).mpr (by omega)
      simp [hm] at this
    have hp : c + 1 = 1 ∨ 1 ≤ cnt (c + 1 - 1) := by
      rcases hc with hc | hc
      · exact Or.inl (by omega)
      · right
        rwa [add_sub_cancel_right]
    obtain ⟨l, mk, h1, h2, -⟩ := addFrequency_ok wc (c + 1) h hz hp
    exact ⟨l, mk, h1, h2⟩
  | some m => exact ⟨wc.sortedFrequencies, _, rfl, h.incr (c + 1) m hm⟩

/-- In a state satisfying the invariant, the marker of the current count of a recorded word
exists, has a positive batch size and points into the list. -/
theorem Inv.marker_of_count {wc : wordCounter} (h : Inv wc) (t : String)
    (ht : 1 ≤ histGet wc t) :
    ∃ m e, mapLookup wc.markers (histGet wc t) = some m ∧ 1 ≤ m.batchSize ∧
      m.position = some e ∧ e ∈ wc.sortedFrequencies.elems ∧ e.Value = histGet wc t := by
  have hk := (mem_keys_iff_pos wc h t).mpr ht
  cases hl : mapLookup wc.wordsHistogram t with
  | none => exact absurd ((mapLookup_eq_none _ _).mp hl) (fun hn => hn hk)
  | some c =>
    have hc : histGet wc t = c := by simp [histGet, hl]
    have hpos := countAt_pos_of_lookup _ _ _ hl
    obtain ⟨e, he, hev, hlk⟩ := h.markersOK.lookup_of_count c hpos
    rw [hc]
    exact ⟨_, e, hlk, by simp only; omega, rfl, he, hev⟩

/-- C11: in a reachable state every call of `CountWord` succeeds; when it raises a count to
`c > 1`, the lookup `markers[c-1]` finds a marker with a positive batch size and a position
linked in the list, both in the state read by `addFrequency` and, after the first half of
`updateMarkers` has run, in the state read by its second half. -/
theorem C11_countWord_never_fails (wc : wordCounter) (w : String) (hr : Reachable wc) :
    (∃ wc', CountWord wc w = .ok wc') ∧
    (TrimSpace w ≠ "" → 1 < histGet wc (TrimSpace w) + 1 →
      (∃ m e, mapLookup wc.markers (histGet wc (TrimSpace w) + 1 - 1) = some m ∧
        1 ≤ m.batchSize ∧ m.position = some e ∧ e ∈ wc.sortedFrequencies.elems) ∧
      ∃ s2 s3,
        updateTop5 (withCount wc (TrimSpace w)) (TrimSpace w)
          (histGet wc (TrimSpace w) + 1) = .ok s2 ∧
        s2.markers = wc.markers ∧ s2.sortedFrequencies = wc.sortedFrequencies ∧
        markCurrent s2 (histGet wc (TrimSpace w) + 1) = .ok s3 ∧
        ∃ m e, mapLookup s3.markers (histGet wc (TrimSpace w) + 1 - 1) = some m ∧
          1 ≤ m.batchSize ∧ m.position = some e ∧ e ∈ s3.sortedFrequencies.elems) := by
  have hinv := hr.inv
  refine ⟨?_, ?_⟩
  · obtain ⟨wc', h1, -⟩ := CountWord_inv wc w hinv
    exact ⟨wc', h1⟩
  · intro hw hgt
    have hpos : 1 ≤ histGet wc (TrimSpace w) := by omega
    rw [add_sub_cancel_right]
    refine ⟨?_, ?_⟩
    · obtain ⟨m, e, h1, h2, h3, h4, -⟩ := hinv.marker_of_count (TrimSpace w) hpos
      exact ⟨m, e, h1, h2, h3, h4⟩
    · obtain ⟨tp, htp, -⟩ := updateTop5_slots wc hinv (TrimSpace w) hw
      have hm : MarkersOK (countAt wc.wordsHistogram)
          ({ withCount wc (TrimSpace w) with top5 := tp } : wordCounter).sortedFrequencies
          ({ withCount wc (TrimSpace w) with top5 := tp } : wordCounter).markers :=
        hinv.markersOK
      have hk := (mem_keys_iff_pos wc hinv (TrimSpace w)).mpr hpos
      have hc : histGet wc (TrimSpace w) = 0 ∨
          1 ≤ countAt wc.wordsHistogram (histGet wc (TrimSpace w)) := by
        right
        obtain ⟨p, hp, hpt⟩ := List.mem_map.mp hk
        have hl := mapLookup_of_mem _ _ _ hinv.keysNodup (show (p.1, p.2) ∈ _ from hp)
        rw [hpt] at hl
        have : histGet wc (TrimSpace w) = p.2 := by simp [histGet, hl]
        rw [this]
        exact countAt_pos_of_lookup _ _ _ hl
      obtain ⟨l, mk, hmc, hok⟩ := markCurrent_ok _ (histGet wc (TrimSpace w)) hm hc
      refine ⟨_, _, htp, rfl, rfl, hmc, ?_⟩
      have hb : 1 ≤ bumpCnt (countAt wc.wordsHistogram) (histGet wc (TrimSpace w) + 1)
          (histGet wc (TrimSpace w)) := by
        have hne : ¬ histGet wc (TrimSpace w) = histGet wc (TrimSpace w) + 1 := by omega
        simp only [bumpCnt, if_neg hne]
        rcases hc with hc | hc
        · omega
        · exact hc
      obtain ⟨e, he, -, hlk⟩ := hok.lookup_of_count _ hb
      exact ⟨_, e, hlk, by simp only; omega, rfl, he⟩

/-- C11 at a concrete input: the second observation of `"a"`, which raises its count to 2. -/
theorem C11_countWord_never_fails_witness :
    Reachable (stateAfter ["a"]) ∧ 1 < histGet (stateAfter ["a"]) (TrimSpace "a") + 1 ∧
      ∃ wc', CountWord (stateAfter ["a"]) "a" = .ok wc' :=
  ⟨stateAfter_reachable ["a"], by decide,
    (C11_countWord_never_fails (stateAfter ["a"]) "a" (stateAfter_reachable ["a"])).1⟩

/-- C13: on the state returned by `New()` the median and the lowest frequency are 0 and the
top-five result is empty; the loop of `MedianFrequency` is not entered, whatever its bound. -/
theorem C13_fresh_queries :
    (∀ fuel, MedianFrequency fuel New = .ok 0) ∧ LowestFrequency New = 0 ∧
      TopFiveFrequentWords New = [] :=
  ⟨fun _ => rfl, rfl, rfl⟩

theorem sorted_getD_le (l : List Int) (h : List.Sorted (fun a b => a ≤ b) l) (i j : Nat)
    (hij : i < j) (hj : j < l.length) : l.getD i 0 ≤ l.getD j 0 := by
  rw [List.getD_eq_getElem _ _ hj, List.getD_eq_getElem _ _ (lt_trans hij hj)]
  exact (List.pairwise_iff_getElem.mp h) i j (lt_trans hij hj) hj hij

/-- C12, shown false: on the six words of the test
`TestWordCounter_multipleWordsDistinctFrequencies` (counts 7, 4, 1, 2, 6, 3, so `n = 6` is
even) the sorted counts hold 3 at index `n/2 - 1`, while `MedianFrequency` returns 4, as
the test asserts. -/
theorem C12_counterexample :
    ∃ wc, countWords New ["w0", "w0", "w1", "w3", "w2", "w0", "w4", "w4", "w5", "w0", "w3",
        "w4", "w0", "w0", "w4", "w1", "w5", "w4", "w1", "w0", "w4", "w5", "w1"] = .ok wc ∧
      wc.wordsHistogram.length = 6 ∧
      (List.insertionSort (fun a b => a ≤ b) (wc.wordsHistogram.map Prod.snd)).getD
        (wc.wordsHistogram.length / 2 - 1) 0 = 3 ∧
      MedianFrequency 6 wc = .ok 4 ∧
      MedianFrequency 6 wc ≠ .ok
        ((List.insertionSort (fun a b => a ≤ b) (wc.wordsHistogram.map Prod.snd)).getD
          (wc.wordsHistogram.length / 2 - 1) 0) := by
  refine ⟨_, rfl, rfl, rfl, rfl, ?_⟩
  intro h
  have h4 : MedianFrequency 6 (stateAfter ["w0", "w0", "w1", "w3", "w2", "w0", "w4", "w4",
      "w5", "w0", "w3", "w4", "w0", "w0", "w4", "w1", "w5", "w4", "w1", "w0", "w4", "w5",
      "w1"]) = .ok 4 := rfl
  have h3 : (List.insertionSort (fun a b => a ≤ b)
      ((stateAfter ["w0", "w0", "w1", "w3", "w2", "w0", "w4", "w4",
      "w5", "w0", "w3", "w4", "w0", "w0", "w4", "w1", "w5", "w4", "w1", "w0", "w4", "w5",
      "w1"]).wordsHistogram.map Prod.snd)).getD
      ((stateAfter ["w0", "w0", "w1", "w3", "w2", "w0", "w4", "w4",
      "w5", "w0", "w3", "w4", "w0", "w0", "w4", "w1", "w5", "w4", "w1", "w0", "w4", "w5",
      "w1"]).wordsHistogram.length / 2 - 1) 0 = 3 := rfl
  have := h4.symm.trans (h.trans (congrArg Except.ok h3))
  cases this

/-- C12, amended: in a reachable state with an even number `n ≥ 2` of distinct words,
`MedianFrequency` returns the element at 0-based index `n/2` of the ascending sort of the
counts, which is the higher-indexed of the two middle elements: it is at least the element
at index `n/2 - 1`. -/
theorem C12_median_even_upper (wc : wordCounter) (hr : Reachable wc)
    (heven : wc.wordsHistogram.length % 2 = 0) (h2 : 2 ≤ wc.wordsHistogram.length)
    (fuel : Nat) (hfuel : wc.sortedFrequencies.elems.length ≤ fuel) :
    MedianFrequency fuel wc = .ok
        ((List.insertionSort (fun a b => a ≤ b) (wc.wordsHistogram.map Prod.snd)).getD
          (wc.wordsHistogram.length / 2) 0) ∧
      wc.wordsHistogram.length / 2 = (wc.wordsHistogram.length / 2 - 1) + 1 ∧
      (List.insertionSort (fun a b => a ≤ b) (wc.wordsHistogram.map Prod.snd)).getD
          (wc.wordsHistogram.length / 2 - 1) 0 ≤
        (List.insertionSort (fun a b => a ≤ b) (wc.wordsHistogram.map Prod.snd)).getD
          (wc.wordsHistogram.length / 2) 0 := by
  refine ⟨hr.inv.median fuel hfuel, by omega, ?_⟩
  apply sorted_getD_le _ (List.sorted_insertionSort _ _)
  · omega
  · rw [List.length_insertionSort, List.length_map]
    omega

/-- C12 amended, at a concrete input: after `a, b, b` the two counts are 1 and 2 and the
median returned is 2. -/
theorem C12_median_even_upper_witness :
    Reachable (stateAfter ["a", "b", "b"]) ∧
      (stateAfter ["a", "b", "b"]).wordsHistogram.length = 2 ∧
      MedianFrequency 2 (stateAfter ["a", "b", "b"]) = .ok
        ((List.insertionSort (fun a b => a ≤ b)
          ((stateAfter ["a", "b", "b"]).wordsHistogram.map Prod.snd)).getD
          ((stateAfter ["a", "b", "b"]).wordsHistogram.length / 2) 0) :=
  ⟨stateAfter_reachable _, rfl,
    (C12_median_even_upper (stateAfter ["a", "b", "b"]) (stateAfter_reachable _)
      (by decide) (by decide) 2 (by decide)).1⟩

/-- C14: the example of `TestWordCounter_exampleTestcase`: after the fourteen observations
the lowest frequency is 1, the median is 2, and the top-five result holds exactly
ball:4, eggs:3, mouse:2, pool:2, table:2; dart, whose count is 1, is not in it. -/
theorem C14_example_testcase :
    ∃ wc, countWords New ["ball", "eggs", "pool", "dart", "ball", "ball", "table", "eggs",
        "pool", "mouse", "ball", "eggs", "table", "mouse"] = .ok wc ∧
      LowestFrequency wc = 1 ∧
      (∀ fuel, wc.sortedFrequencies.elems.length ≤ fuel → MedianFrequency fuel wc = .ok 2) ∧
      (TopFiveFrequentWords wc).Perm
        [("ball", 4), ("eggs", 3), ("mouse", 2), ("pool", 2), ("table", 2)] ∧
      ((TopFiveFrequentWords wc).map Prod.fst).Nodup ∧
      mapLookup (TopFiveFrequentWords wc) "dart" = none ∧ histGet wc "dart" = 1 := by
  refine ⟨stateAfter ["ball", "eggs", "pool", "dart", "ball", "ball", "table", "eggs",
        "pool", "mouse", "ball", "eggs", "table", "mouse"], stateAfter_spec _, rfl, ?_, ?_,
        ?_, rfl, rfl⟩
  · intro fuel hfuel
    rw [(stateAfter_reachable _).inv.median fuel hfuel]
    rfl
  · have : TopFiveFrequentWords (stateAfter ["ball", "eggs", "pool", "dart", "ball", "ball",
        "table", "eggs", "pool", "mouse", "ball", "eggs", "table", "mouse"]) =
        [("ball", 4), ("eggs", 3), ("pool", 2), ("mouse", 2), ("table", 2)] := rfl
    rw [this]
    exact ((List.Perm.swap _ _ _).cons _).cons _
  · have : TopFiveFrequentWords (stateAfter ["ball", "eggs", "pool", "dart", "ball", "ball",
        "table", "eggs", "pool", "mouse", "ball", "eggs", "table", "mouse"]) =
        [("ball", 4), ("eggs", 3), ("pool", 2), ("mouse", 2), ("table", 2)] := rfl
    rw [this]
    decide

/-- C19: the six distinct words a..f observed once each, and the same observations with f
first, are permutations of each other and give the same count for every word, the same
lowest frequency and the same median; yet the first run reports a..e and not f, while the
second reports f and not e. -/
theorem C19_order_dependence :
    ∃ s1 s2, List.Perm ["a", "b", "c", "d", "e", "f"] ["f", "a", "b", "c", "d", "e"] ∧
      countWords New ["a", "b", "c", "d", "e", "f"] = .ok s1 ∧
      countWords New ["f", "a", "b", "c", "d", "e"] = .ok s2 ∧
      (∀ t, histGet s1 t = histGet s2 t) ∧
      LowestFrequency s1 = LowestFrequency s2 ∧
      (∀ fuel, MedianFrequency fuel s1 = MedianFrequency fuel s2) ∧
      mapLookup (TopFiveFrequentWords s1) "f" = none ∧
      mapLookup (TopFiveFrequentWords s2) "f" = some 1 ∧
      mapLookup (TopFiveFrequentWords s1) "e" = some 1 ∧
      mapLookup (TopFiveFrequentWords s2) "e" = none ∧
      ¬ (TopFiveFrequentWords s1).Perm (TopFiveFrequentWords s2) := by
  have hperm : List.Perm ["a", "b", "c", "d", "e", "f"] ["f", "a", "b", "c", "d", "e"] := by
    decide
  obtain ⟨s1, h1, -, c1⟩ := countWords_hist ["a", "b", "c", "d", "e", "f"] New Inv_New
  obtain ⟨s2, h2, -, c2⟩ := countWords_hist ["f", "a", "b", "c", "d", "e"] New Inv_New
  have e1 : s1 = stateAfter ["a", "b", "c", "d", "e", "f"] := by
    have := (stateAfter_spec ["a", "b", "c", "d", "e", "f"]).symm.trans h1
    cases this
    rfl
  have e2 : s2 = stateAfter ["f", "a", "b", "c", "d", "e"] := by
    have := (stateAfter_spec ["f", "a", "b", "c", "d", "e"]).symm.trans h2
    cases this
    rfl
  refine ⟨s1, s2, hperm, h1, h2, ?_, ?_, ?_, ?_, ?_, ?_, ?_, ?_⟩
  · intro t
    by_cases ht : t = ""
    · subst ht
      rw [e1, e2]
      rfl
    · rw [c1 t ht, c2 t ht, hperm.countP_eq]
  · rw [e1, e2]
    rfl
  · intro fuel
    rw [e1, e2]
    cases fuel <;> rfl
  · rw [e1]
    rfl
  · rw [e2]
    rfl
  · rw [e1]
    rfl
  · rw [e2]
    rfl
  · intro hp
    have hm : ("e", (1 : Int)) ∈ TopFiveFrequentWords s1 := by
      rw [e1]
      decide
    have hn : ("e", (1 : Int)) ∉ TopFiveFrequentWords s2 := by
      rw [e2]
      decide
    exact hn (hp.mem_iff.mp hm)

/-! ## States in which all words have the same count -/

theorem countAt_uniform (hist : List (String × Int)) (v : Int) (hu : ∀ p ∈ hist, p.2 = v) :
    countAt hist v = hist.length := by
  unfold countAt
  rw [List.countP_eq_length]
  intro p hp
  simpa using hu p hp

theorem Inv.lowest_uniform {wc : wordCounter} (h : Inv wc) (v : Int)
    (hu : ∀ p ∈ wc.wordsHistogram, p.2 = v) (hne : wc.wordsHistogram ≠ []) :
    LowestFrequency wc = v := by
  obtain ⟨⟨p, hp, hpl⟩, -⟩ := h.lowest.2 hne
  rw [← hpl, hu p hp]

/-- When all recorded words have the same count, the loop of `MedianFrequency` is not
entered: the first batch already covers the median index. -/
theorem Inv.median_uniform {wc : wordCounter} (h : Inv wc) (v : Int)
    (hu : ∀ p ∈ wc.wordsHistogram, p.2 = v) (hne : wc.wordsHistogram ≠ []) (fuel : Nat) :
    MedianFrequency fuel wc = .ok v := by
  have hnil : wc.sortedFrequencies.elems ≠ [] := fun e => hne (h.elems_nil_iff.mp e)
  obtain ⟨e, l, hel⟩ := List.exists_cons_of_ne_nil hnil
  have hmem : e ∈ wc.sortedFrequencies.elems := by simp [hel]
  have hlow := LowestFrequency_cons wc e l hel
  have hev : e.Value = v := by rw [← hlow, h.lowest_uniform v hu hne]
  have hlk := (h.markersOK.ofElem e hmem).1
  rw [hev, countAt_uniform _ v hu] at hlk
  have hlen0 : ¬ wc.sortedFrequencies.Len = 0 := by
    simp [LinkedList.Len, hel]
    omega
  have hdiv : Int.tdiv (mapLen wc.wordsHistogram) 2 =
      ((wc.wordsHistogram.length / 2 : Nat) : Int) := rfl
  have hpos : 0 < wc.wordsHistogram.length := List.length_pos.mpr hne
  simp only [MedianFrequency, hlen0, if_false, hlow, hev, hlk, hdiv]
  rw [medianLoop_done _ _ _ _ _ (by omega), hev]

theorem hist_entry_eq_histGet (wc : wordCounter) (h : Inv wc) (p : String × Int)
    (hp : p ∈ wc.wordsHistogram) : p.2 = histGet wc p.1 := by
  have := mapLookup_of_mem _ _ _ h.keysNodup (show (p.1, p.2) ∈ _ from hp)
  simp [histGet, this]

theorem Inv.topFive_mem {wc : wordCounter} (h : Inv wc) (p : String × Int)
    (hp : p ∈ TopFiveFrequentWords wc) :
    p.1 ∈ wc.wordsHistogram.map Prod.fst ∧ p.2 = histGet wc p.1 ∧ ∃ i, wc.top5 i = p.1 := by
  rw [h.topFive_eq] at hp
  obtain ⟨i, hi, hip⟩ := List.mem_map.mp hp
  have hne : wc.top5 i ≠ "" := by
    have := (List.mem_filter.mp hi).2
    simpa using this
  subst hip
  refine ⟨?_, rfl, i, rfl⟩
  rcases h.slotsKnown i with hk | hk
  · exact absurd hk hne
  · exact hk

/-- C15: for every `k ≥ 1` and every word `w` with a non-empty trimmed form, `k` calls of
`CountWord w` on `New()` succeed and give lowest frequency `k`, median `k` (the loop of
`MedianFrequency` is not entered, whatever its bound) and the top-five result with the single
entry `TrimSpace w : k`. -/
theorem C15_single_word (k : Nat) (w : String) (hk : 1 ≤ k) (hw : TrimSpace w ≠ "") :
    ∃ wc, countWords New (List.replicate k w) = .ok wc ∧
      LowestFrequency wc = (k : Int) ∧
      (∀ fuel, MedianFrequency fuel wc = .ok (k : Int)) ∧
      TopFiveFrequentWords wc = [(TrimSpace w, (k : Int))] := by
  obtain ⟨wc, h1, h2, h3⟩ := countWords_hist (List.replicate k w) New Inv_New
  have h0 : ∀ t, histGet New t = 0 := fun t => by simp [histGet, New, mapLookup]
  have hget : ∀ t, t ≠ "" → histGet wc t = if TrimSpace w = t then (k : Int) else 0 := by
    intro t ht
    rw [h3 t ht, h0, List.countP_replicate]
    by_cases e : TrimSpace w = t <;> simp [e]
  have hkeys : wc.wordsHistogram.map Prod.fst = [TrimSpace w] := by
    rw [← List.perm_singleton,
      List.perm_ext_iff_of_nodup h2.keysNodup (List.nodup_singleton _)]
    intro t
    rw [mem_keys_iff_pos wc h2, List.mem_singleton]
    by_cases ht : t = ""
    · subst ht
      rw [histGet_blank wc h2]
      constructor
      · intro h
        omega
      · intro h
        exact absurd h.symm hw
    · rw [hget t ht]
      constructor
      · intro h
        by_contra hne
        rw [if_neg (fun e => hne e.symm)] at h
        omega
      · intro h
        rw [if_pos h.symm]
        exact_mod_cast hk
  have hu : ∀ p ∈ wc.wordsHistogram, p.2 = (k : Int) := by
    intro p hp
    have hp1 : p.1 = TrimSpace w := by
      have : p.1 ∈ wc.wordsHistogram.map Prod.fst := List.mem_map_of_mem _ hp
      rw [hkeys] at this
      exact List.mem_singleton.mp this
    rw [hist_entry_eq_histGet wc h2 p hp, hp1, hget _ hw, if_pos rfl]
  have hne : wc.wordsHistogram ≠ [] := by
    intro e
    rw [e] at hkeys
    simp at hkeys
  refine ⟨wc, h1, h2.lowest_uniform _ hu hne, fun fuel => h2.median_uniform _ hu hne fuel, ?_⟩
  have hlen : (TopFiveFrequentWords wc).length = 1 := by
    rw [h2.topFive_eq, List.length_map, h2.occupied_length]
    have : wc.wordsHistogram.length = 1 := by
      rw [← List.length_map wc.wordsHistogram Prod.fst, hkeys]
      rfl
    rw [this]
    rfl
  obtain ⟨p, hp⟩ := List.length_eq_one.mp hlen
  have hmem : p ∈ TopFiveFrequentWords wc := by simp [hp]
  obtain ⟨hp1, hp2, -⟩ := h2.topFive_mem p hmem
  rw [hkeys, List.mem_singleton] at hp1
  rw [hp1, hget _ hw, if_pos rfl] at hp2
  rw [hp]
  congr 1
  exact Prod.ext hp1 hp2

/-- C15 at a concrete input: the test `TestWordCounter_singleWord`, 20 times `hello`. -/
theorem C15_single_word_witness :
    ∃ wc, countWords New (List.replicate 20 "hello") = .ok wc ∧
      LowestFrequency wc = 20 ∧
      (∀ fuel, MedianFrequency fuel wc = .ok 20) ∧
      TopFiveFrequentWords wc = [("hello", 20)] :=
  C15_single_word 20 "hello" (by decide) (by decide)

/-- C16: for every list of at least 5 words whose trimmed forms are non-blank and pairwise
distinct, one call of `CountWord` on each, in order, on `New()` succeeds and gives lowest
frequency 1, median 1 (the loop of `MedianFrequency` is not entered, whatever its bound) and
a top-five result of exactly 5 entries, each with count 1. -/
theorem C16_distinct_words (ws : List String) (hn : 5 ≤ ws.length)
    (hd : (ws.map TrimSpace).Nodup) (hb : ∀ w ∈ ws, TrimSpace w ≠ "") :
    ∃ wc, countWords New ws = .ok wc ∧
      LowestFrequency wc = 1 ∧
      (∀ fuel, MedianFrequency fuel wc = .ok 1) ∧
      (TopFiveFrequentWords wc).length = 5 ∧
      ∀ p ∈ TopFiveFrequentWords wc, p.2 = 1 := by
  obtain ⟨wc, h1, h2, h3⟩ := countWords_hist ws New Inv_New
  have h0 : ∀ t, histGet New t = 0 := fun t => by simp [histGet, New, mapLookup]
  have hkey1 : ∀ t, t ∈ wc.wordsHistogram.map Prod.fst → histGet wc t = 1 := by
    intro t ht
    have hpos := histGet_pos_of_mem wc h2 t ht
    have htne : t ≠ "" := by
      intro e
      rw [e, histGet_blank wc h2] at hpos
      omega
    have hle : ws.countP (fun x => decide (TrimSpace x = t)) ≤ 1 := by
      have := List.nodup_iff_count_le_one.mp hd t
      rw [List.count_eq_countP, List.countP_map] at this
      have hfun : ((fun x => x == t) ∘ TrimSpace) = (fun x => decide (TrimSpace x = t)) := by
        funext x
        rfl
      rwa [hfun] at this
    rw [h3 t htne, h0] at hpos ⊢
    omega
  have hu : ∀ p ∈ wc.wordsHistogram, p.2 = 1 := by
    intro p hp
    rw [hist_entry_eq_histGet wc h2 p hp]
    exact hkey1 _ (List.mem_map_of_mem _ hp)
  have hdist : (distinctWords ws).length = ws.length := by
    unfold distinctWords
    have hf : List.filter (fun t => decide (t ≠ "")) (ws.map TrimSpace) = ws.map TrimSpace := by
      rw [List.filter_eq_self]
      intro t ht
      obtain ⟨x, hx, hxt⟩ := List.mem_map.mp ht
      have := hb x hx
      simpa [hxt] using this
    rw [hf, hd.dedup, List.length_map]
  have hlen : wc.wordsHistogram.length = ws.length := by
    rw [← hdist, ← (keys_perm_distinctWords ws wc h1).length_eq, List.length_map]
  have hne : wc.wordsHistogram ≠ [] := by
    intro e
    rw [e] at hlen
    simp at hlen
    omega
  refine ⟨wc, h1, h2.lowest_uniform 1 hu hne, fun fuel => h2.median_uniform 1 hu hne fuel,
    ?_, ?_⟩
  · rw [h2.topFive_eq, List.length_map, h2.occupied_length, hlen]
    omega
  · intro p hp
    obtain ⟨hp1, hp2, -⟩ := h2.topFive_mem p hp
    rw [hp2]
    exact hkey1 _ hp1

/-- C16 at a concrete input: six distinct words. -/
theorem C16_distinct_words_witness :
    ∃ wc, countWords New ["a", "b", "c", "d", "e", "f"] = .ok wc ∧
      LowestFrequency wc = 1 ∧
      (∀ fuel, MedianFrequency fuel wc = .ok 1) ∧
      (TopFiveFrequentWords wc).length = 5 ∧
      ∀ p ∈ TopFiveFrequentWords wc, p.2 = 1 :=
  C16_distinct_words ["a", "b", "c", "d", "e", "f"] (by decide) (by decide) (by decide)

/-! ## The slots hold the largest counts -/

theorem SlotsDominate_New : SlotsDominate New := by
  intro s _ j
  simp [histGet, New, mapLookup]

theorem CountWord_dominate (wc : wordCounter) (w : String) (h : Inv wc)
    (hd : SlotsDominate wc) :
    ∃ wc', CountWord wc w = .ok wc' ∧ Inv wc' ∧ SlotsDominate wc' := by
  by_cases hw : TrimSpace w = ""
  · exact ⟨wc, CountWord_blank wc w hw, h, hd⟩
  · obtain ⟨wc', h1, h2, hh, htop⟩ := CountWord_step wc w h hw
    refine ⟨wc', h1, h2, ?_⟩
    have hc0 := histGet_nonneg wc h (TrimSpace w)
    have hG : ∀ s, histGet wc' s = histGet (withCount wc (TrimSpace w)) s := by
      intro s
      unfold histGet withCount
      rw [hh]
    have hG' : ∀ s, histGet wc' s =
        if TrimSpace w = s then histGet wc (TrimSpace w) + 1 else histGet wc s := by
      intro s
      rw [hG, histGet_withCount]
    have hmono : ∀ s, histGet wc s ≤ histGet wc' s := by
      intro s
      rw [hG']
      split_ifs with e
      · rw [← e]
        omega
      · exact le_refl _
    have htopA : (withCount wc (TrimSpace w)).top5 = wc.top5 := rfl
    obtain ⟨j0, hj0, hcase⟩ := updateTop5_cases (withCount wc (TrimSpace w)) (TrimSpace w)
      (histGet wc (TrimSpace w) + 1)
    rw [htopA] at hcase
    rcases hcase with ⟨hkeep, hres⟩ | ⟨hno, hlt, hres⟩
    · have htp : wc'.top5 = wc.top5 := by
        have := htop.symm.trans hres
        have := congrArg wordCounter.top5 (Except.ok.inj this)
        exact this
      intro s hs j
      rw [htp] at hs ⊢
      by_cases hst : s = TrimSpace w
      · subst hst
        rcases hkeep with ⟨i, hi⟩ | hle
        · exact absurd hi (hs i)
        · have hmin := hj0.1 j
          rw [htopA] at hmin
          rw [hG' (TrimSpace w), if_pos rfl, hG (wc.top5 j)]
          omega
      · have h1 := hd s hs j
        have h2 := hmono (wc.top5 j)
        rw [hG' s, if_neg (fun e => hst e.symm)]
        omega
    · have htp : wc'.top5 = Function.update wc.top5 j0 (TrimSpace w) := by
        have := htop.symm.trans hres
        have := congrArg wordCounter.top5 (Except.ok.inj this)
        exact this
      have hj0t : wc.top5 j0 ≠ TrimSpace w := hno j0
      have hA0 : histGet (withCount wc (TrimSpace w)) (wc.top5 j0) = histGet wc (wc.top5 j0) := by
        rw [histGet_withCount, if_neg (fun e => hj0t e.symm)]
      rw [hA0] at hlt
      intro s hs j
      rw [htp] at hs ⊢
      have hst : s ≠ TrimSpace w := by
        intro e
        have := hs j0
        rw [Function.update_same] at this
        exact this e.symm
      have hsold : ∀ i, i ≠ j0 → wc.top5 i ≠ s := by
        intro i hi
        have := hs i
        rwa [Function.update_noteq hi] at this
      have hs_le : histGet wc s ≤ histGet wc (wc.top5 j0) := by
        by_cases hev : wc.top5 j0 = s
        · rw [hev]
        · exact hd s (fun i => by
            by_cases hi : i = j0
            · rw [hi]
              exact hev
            · exact hsold i hi) j0
      rw [hG' s, if_neg (fun e => hst e.symm)]
      by_cases hj : j = j0
      · subst hj
        rw [Function.update_same, hG', if_pos rfl]
        omega
      · rw [Function.update_noteq hj, hG', if_neg (fun e => hno j e.symm)]
        have hmin := hj0.1 j
        rw [htopA, hA0, histGet_withCount, if_neg (fun e => hno j e.symm)] at hmin
        omega

theorem countWords_dominate (ws : List String) (wc : wordCounter) (h : Inv wc)
    (hd : SlotsDominate wc) :
    ∃ wc', countWords wc ws = .ok wc' ∧ Inv wc' ∧ SlotsDominate wc' := by
  induction ws generalizing wc with
  | nil => exact ⟨wc, rfl, h, hd⟩
  | cons w ws ih =>
    obtain ⟨wc1, h1, h2, h3⟩ := CountWord_dominate wc w h hd
    obtain ⟨wc2, h4, h5, h6⟩ := ih wc1 h2 h3
    exact ⟨wc2, by simp [countWords, h1, h4], h5, h6⟩

theorem Inv.topFive_sub {wc : wordCounter} (h : Inv wc) (q : String × Int)
    (hq : q ∈ TopFiveFrequentWords wc) : q ∈ wc.wordsHistogram := by
  obtain ⟨hq1, hq2, -⟩ := h.topFive_mem q hq
  cases hl : mapLookup wc.wordsHistogram q.1 with
  | none => exact absurd ((mapLookup_eq_none _ _).mp hl) (fun hn => hn hq1)
  | some v =>
    have hv : q.2 = v := by rw [hq2]; simp [histGet, hl]
    have := mapLookup_mem _ _ _ hl
    rw [← hv] at this
    exact this

theorem Inv.topFive_keys_nodup {wc : wordCounter} (h : Inv wc) :
    ((TopFiveFrequentWords wc).map Prod.fst).Nodup := by
  rw [h.topFive_eq, List.map_map]
  exact h.occupied_nodup

/-- The entries of the histogram split into the reported ones and the others. -/
theorem Inv.counts_split {wc : wordCounter} (h : Inv wc) :
    (wc.wordsHistogram.map Prod.snd).Perm
      ((TopFiveFrequentWords wc).map Prod.snd ++
        (wc.wordsHistogram.filter
          (fun p => !decide (p.1 ∈ (TopFiveFrequentWords wc).map Prod.fst))).map Prod.snd) := by
  have hin : (wc.wordsHistogram.filter
      (fun p => decide (p.1 ∈ (TopFiveFrequentWords wc).map Prod.fst))).Perm
      (TopFiveFrequentWords wc) := by
    rw [List.perm_ext_iff_of_nodup
      ((List.Nodup.of_map Prod.fst h.keysNodup).filter _)
      (List.Nodup.of_map Prod.fst h.topFive_keys_nodup)]
    intro p
    rw [List.mem_filter]
    constructor
    · rintro ⟨hp, hk⟩
      obtain ⟨q, hq, hqp⟩ := List.mem_map.mp (of_decide_eq_true hk)
      have hqh := h.topFive_sub q hq
      have e2 : q.2 = p.2 := by
        rw [hist_entry_eq_histGet wc h q hqh, hist_entry_eq_histGet wc h p hp, hqp]
      have : q = p := Prod.ext hqp e2
      rwa [← this]
    · intro hp
      exact ⟨h.topFive_sub p hp, decide_eq_true (List.mem_map_of_mem _ hp)⟩
  have := (List.filter_append_perm
    (fun p => decide (p.1 ∈ (TopFiveFrequentWords wc).map Prod.fst)) wc.wordsHistogram).symm
  exact (this.map Prod.snd).trans (by
    rw [List.map_append]
    exact (hin.map Prod.snd).append_right _)

/-- C17: after every sequence of `CountWord` calls on `New()`, every recorded word that is
not in the result of `TopFiveFrequentWords` has a count at most the count of every word in
it; hence the reported counts, in descending order, are the first five of all per-word
counts in descending order (all of them when fewer than five words exist). -/
theorem C17_topFive_valid (ws : List String) :
    ∃ wc, countWords New ws = .ok wc ∧
      (∀ p ∈ wc.wordsHistogram, p.1 ∉ (TopFiveFrequentWords wc).map Prod.fst →
        ∀ q ∈ TopFiveFrequentWords wc, p.2 ≤ q.2) ∧
      List.insertionSort (fun a b => a ≥ b) ((TopFiveFrequentWords wc).map Prod.snd) =
        (List.insertionSort (fun a b => a ≥ b) (wc.wordsHistogram.map Prod.snd)).take 5 := by
  obtain ⟨wc, h1, h2, h3⟩ := countWords_dominate ws New Inv_New SlotsDominate_New
  have hdom : ∀ p ∈ wc.wordsHistogram, p.1 ∉ (TopFiveFrequentWords wc).map Prod.fst →
      ∀ q ∈ TopFiveFrequentWords wc, p.2 ≤ q.2 := by
    intro p hp hnot q hq
    obtain ⟨-, hq2, j, hj⟩ := h2.topFive_mem q hq
    have hout : ∀ i, wc.top5 i ≠ p.1 := by
      intro i hi
      apply hnot
      rw [h2.topFive_eq, List.map_map]
      refine List.mem_map.mpr ⟨i, ?_, hi⟩
      unfold occupiedSlots
      rw [List.mem_filter]
      refine ⟨List.mem_finRange i, ?_⟩
      have := h2.keysNonblank p hp
      simpa [hi] using this
    have := h3 p.1 hout j
    rw [hist_entry_eq_histGet wc h2 p hp, hq2, ← hj]
    exact this
  refine ⟨wc, h1, hdom, ?_⟩
  have hsplit := h2.counts_split
  generalize hO : (wc.wordsHistogram.filter
      (fun p => !decide (p.1 ∈ (TopFiveFrequentWords wc).map Prod.fst))) = O at hsplit
  have hOmem : ∀ p ∈ O, p ∈ wc.wordsHistogram ∧
      p.1 ∉ (TopFiveFrequentWords wc).map Prod.fst := by
    intro p hp
    rw [← hO, List.mem_filter] at hp
    refine ⟨hp.1, ?_⟩
    have := hp.2
    simpa using this
  have hperm : (List.insertionSort (fun a b => a ≥ b) (wc.wordsHistogram.map Prod.snd)).Perm
      (List.insertionSort (fun a b => a ≥ b) ((TopFiveFrequentWords wc).map Prod.snd) ++
        List.insertionSort (fun a b => a ≥ b) (O.map Prod.snd)) :=
    ((List.perm_insertionSort _ _).trans hsplit).trans
      ((List.perm_insertionSort _ _).symm.append (List.perm_insertionSort _ _).symm)
  have hsorted : List.Sorted (fun a b => a ≥ b)
      (List.insertionSort (fun a b => a ≥ b) ((TopFiveFrequentWords wc).map Prod.snd) ++
        List.insertionSort (fun a b => a ≥ b) (O.map Prod.snd)) := by
    unfold List.Sorted
    rw [List.pairwise_append]
    refine ⟨List.sorted_insertionSort _ _, List.sorted_insertionSort _ _, ?_⟩
    intro a ha b hb
    have ha' := (List.perm_insertionSort _ _).mem_iff.mp ha
    have hb' := (List.perm_insertionSort _ _).mem_iff.mp hb
    obtain ⟨q, hq, hqa⟩ := List.mem_map.mp ha'
    obtain ⟨p, hp, hpb⟩ := List.mem_map.mp hb'
    obtain ⟨hp1, hp2⟩ := hOmem p hp
    have := hdom p hp1 hp2 q hq
    rw [← hqa, ← hpb]
    exact this
  have heq := List.eq_of_perm_of_sorted hperm (List.sorted_insertionSort _ _) hsorted
  rw [heq]
  have hlenT : (List.insertionSort (fun a b => a ≥ b)
      ((TopFiveFrequentWords wc).map Prod.snd)).length =
      min 5 wc.wordsHistogram.length := by
    rw [List.length_insertionSort, List.length_map, h2.topFive_eq, List.length_map,
      h2.occupied_length]
  have hlenAll : wc.wordsHistogram.length =
      (List.insertionSort (fun a b => a ≥ b)
        ((TopFiveFrequentWords wc).map Prod.snd)).length + O.length := by
    have := hperm.length_eq
    rw [List.length_insertionSort, List.length_map, List.length_append,
      List.length_insertionSort (fun a b => a ≥ b) (O.map Prod.snd), List.length_map] at this
    exact this
  by_cases h5 : (List.insertionSort (fun a b => a ≥ b)
      ((TopFiveFrequentWords wc).map Prod.snd)).length = 5
  · rw [List.take_left' h5]
  · have hO0 : O = [] := by
      apply List.eq_nil_of_length_eq_zero
      omega
    rw [hO0]
    simp only [List.map_nil, List.insertionSort, List.append_nil]
    rw [List.take_of_length_le (by omega)]

/-! ## The keys of the markers map -/

theorem mapDelete_keys_nodup {κ ν : Type} [DecidableEq κ] (m : List (κ × ν)) (k : κ)
    (hn : (m.map Prod.fst).Nodup) : ((mapDelete m k).map Prod.fst).Nodup :=
  hn.sublist ((List.filter_sublist _).map Prod.fst)

theorem updateTop5_markers (wc wc1 : wordCounter) (word : String) (f : Int)
    (h : updateTop5 wc word f = .ok wc1) : wc1.markers = wc.markers := by
  unfold updateTop5 at h
  simp only at h
  split_ifs at h <;> cases h <;> rfl

theorem addFrequency_markers (wc wc1 : wordCounter) (f : Int)
    (h : addFrequency wc f = .ok wc1) : ∃ m, wc1.markers = mapStore wc.markers f m := by
  unfold addFrequency at h
  split_ifs at h with hf
  · cases h
    exact ⟨_, rfl⟩
  · cases hl : mapLookup wc.markers (f - 1) with
    | none => simp [hl] at h
    | some pm =>
      cases hp : pm.position with
      | none => simp [hl, hp] at h
      | some mark =>
        simp only [hl, hp] at h
        cases h
        exact ⟨_, rfl⟩

theorem markCurrent_markers (wc wc1 : wordCounter) (f : Int)
    (h : markCurrent wc f = .ok wc1) : ∃ m, wc1.markers = mapStore wc.markers f m := by
  unfold markCurrent at h
  cases hl : mapLookup wc.markers f with
  | none =>
    simp only [hl] at h
    exact addFrequency_markers wc wc1 f h
  | some m =>
    simp only [hl] at h
    cases h
    exact ⟨_, rfl⟩

theorem releasePrev_markers_nodup (wc wc1 : wordCounter) (f : Int)
    (h : releasePrev wc f = .ok wc1) (hn : (wc.markers.map Prod.fst).Nodup) :
    (wc1.markers.map Prod.fst).Nodup := by
  unfold releasePrev at h
  split_ifs at h with hf
  · cases hl : mapLookup wc.markers (f - 1) with
    | none => simp [hl] at h
    | some pm =>
      simp only [hl] at h
      split_ifs at h with hb
      · cases hp : pm.position with
        | none => simp [hp] at h
        | some pos =>
          simp only [hp] at h
          cases h
          exact mapDelete_keys_nodup _ _ hn
      · cases h
        exact mapStore_keys_nodup _ _ _ hn
  · cases h
    exact hn

theorem CountWord_markers_nodup (wc wc1 : wordCounter) (w : String)
    (h : CountWord wc w = .ok wc1) (hn : (wc.markers.map Prod.fst).Nodup) :
    (wc1.markers.map Prod.fst).Nodup := by
  unfold CountWord at h
  split_ifs at h with hw
  · cases h
    exact hn
  · unfold updateState at h
    change (match updateTop5 (withCount wc (TrimSpace w)) (TrimSpace w)
      (histGet wc (TrimSpace w) + 1) with
      | Except.error f => Except.error f
      | Except.ok s => updateMarkers s (histGet wc (TrimSpace w) + 1)) = _ at h
    cases h5 : updateTop5 (withCount wc (TrimSpace w)) (TrimSpace w)
        (histGet wc (TrimSpace w) + 1) with
    | error f => simp [h5] at h
    | ok s2 =>
      simp only [h5] at h
      have hm2 : s2.markers = wc.markers :=
        updateTop5_markers (withCount wc (TrimSpace w)) _ _ _ h5
      unfold updateMarkers at h
      cases h6 : markCurrent s2 (histGet wc (TrimSpace w) + 1) with
      | error f => simp [h6] at h
      | ok s3 =>
        simp only [h6] at h
        obtain ⟨m, hm3⟩ := markCurrent_markers _ _ _ h6
        apply releasePrev_markers_nodup s3 wc1 _ h
        rw [hm3, hm2]
        exact mapStore_keys_nodup _ _ _ hn

theorem countWords_markers_nodup (ws : List String) (wc wc1 : wordCounter)
    (h : countWords wc ws = .ok wc1) (hn : (wc.markers.map Prod.fst).Nodup) :
    (wc1.markers.map Prod.fst).Nodup := by
  induction ws generalizing wc with
  | nil =>
    cases h
    exact hn
  | cons w ws ih =>
    simp only [countWords] at h
    cases hc : CountWord wc w with
    | error f => simp [hc] at h
    | ok s =>
      simp only [hc] at h
      exact ih s h (CountWord_markers_nodup wc s w hc hn)

theorem Reachable.markers_nodup {wc : wordCounter} (h : Reachable wc) :
    (wc.markers.map Prod.fst).Nodup := by
  obtain ⟨ws, hws⟩ := h
  exact countWords_markers_nodup ws New wc hws (by simp [New])

/-! ## The batch sizes add up to the number of words -/

theorem expand_length (cnt : Int → Nat) (l : List Element) :
    ((expand cnt l).length : Int) = (l.map (fun e => (cnt e.Value : Int))).sum := by
  induction l with
  | nil => simp [expand]
  | cons e l ih =>
    simp only [expand, List.length_append, List.length_replicate, List.map_cons, List.sum_cons]
    push_cast
    rw [ih]

theorem Inv.expand_length_eq {wc : wordCounter} (h : Inv wc) :
    (expand (countAt wc.wordsHistogram) wc.sortedFrequencies.elems).length =
      wc.wordsHistogram.length := by
  rw [← sorted_counts_eq_expand _ _ _ h.markersOK, List.length_insertionSort, List.length_map]

theorem length_le_expand_length (cnt : Int → Nat) (l : List Element)
    (h : ∀ e ∈ l, 1 ≤ cnt e.Value) : l.length ≤ (expand cnt l).length := by
  induction l with
  | nil => simp
  | cons e l ih =>
    have h1 := h e (List.mem_cons_self _ _)
    have h2 := ih (fun x hx => h x (List.mem_cons_of_mem _ hx))
    simp only [expand, List.length_append, List.length_replicate, List.length_cons]
    omega

/-- There are at most as many distinct frequencies as recorded words. -/
theorem Inv.elems_length_le {wc : wordCounter} (h : Inv wc) :
    wc.sortedFrequencies.elems.length ≤ wc.wordsHistogram.length := by
  rw [← h.expand_length_eq]
  exact length_le_expand_length _ _ (fun e he => (h.markersOK.ofElem e he).2)

theorem batchSize_sum {wc : wordCounter} (h : Inv wc)
    (hn : (wc.markers.map Prod.fst).Nodup) :
    (wc.markers.map (fun p => p.2.batchSize)).sum = (wc.wordsHistogram.length : Int) := by
  have hm := h.markersOK
  have h1 : wc.markers.map (fun p => p.2.batchSize) =
      (wc.markers.map Prod.fst).map (fun f => (countAt wc.wordsHistogram f : Int)) := by
    rw [List.map_map]
    apply List.map_congr_left
    intro p hp
    have hl := mapLookup_of_mem _ _ _ hn (show (p.1, p.2) ∈ _ from hp)
    obtain ⟨e, he, hev⟩ := hm.ofMarker p.1 p.2 hl
    have := (hm.ofElem e he).1
    rw [hev, hl] at this
    have hp2 := Option.some.inj this
    simp only [Function.comp]
    rw [hp2]
  have hvn : (wc.sortedFrequencies.elems.map Element.Value).Nodup :=
    List.Pairwise.imp (fun hab => ne_of_lt hab) (ascending_values hm.ascending)
  have hperm : (wc.markers.map Prod.fst).Perm (wc.sortedFrequencies.elems.map Element.Value) := by
    rw [List.perm_ext_iff_of_nodup hn hvn]
    intro f
    rw [← not_iff_not, ← mapLookup_eq_none]
    constructor
    · intro hnone hf
      obtain ⟨e, he, hev⟩ := List.mem_map.mp hf
      have := (hm.ofElem e he).1
      rw [hev, hnone] at this
      cases this
    · intro hf
      cases hl : mapLookup wc.markers f with
      | none => rfl
      | some m =>
        obtain ⟨e, he, hev⟩ := hm.ofMarker f m hl
        exact absurd (List.mem_map.mpr ⟨e, he, hev⟩) hf
  rw [h1, (hperm.map _).sum_eq, List.map_map, ← h.expand_length_eq, expand_length]
  rfl

/-- With any bound on its iterations the walk of `MedianFrequency` either returns the element
whose batch holds index `k` or runs out of iterations; it never meets a nil `Next()` or a
missing marker. -/
theorem medianLoop_outcome (wc : wordCounter) (cnt : Int → Nat)
    (hm : MarkersOK cnt wc.sortedFrequencies wc.markers) (k : Nat)
    (hk : k < (expand cnt wc.sortedFrequencies.elems).length)
    (post : List Element) :
    ∀ (pre : List Element) (e : Element) (fuel : Nat) (idx : Int),
      wc.sortedFrequencies.elems = pre ++ e :: post →
      (expand cnt pre).length ≤ k →
      idx = (((expand cnt pre).length + cnt e.Value : Nat) : Int) - 1 →
      medianLoop wc (k : Int) fuel idx e =
          .ok ((expand cnt wc.sortedFrequencies.elems).getD k 0) ∨
        medianLoop wc (k : Int) fuel idx e = .error .fuel := by
  induction post with
  | nil =>
    intro pre e fuel idx hE hk1 hidx
    exact Or.inl (medianLoop_spec wc cnt hm k hk [] pre e fuel idx hE (Nat.zero_le _) hk1 hidx)
  | cons e' post ih =>
    intro pre e fuel idx hE hk1 hidx
    by_cases hlt : idx < (k : Int)
    · cases fuel with
      | zero =>
        right
        simp [medianLoop, hlt]
      | succ fuel' =>
        have hpre : ∀ x ∈ pre, x.addr ≠ e.addr := by
          intro x hx hxa
          have hn := hm.addrNodup
          rw [hE, List.map_append, List.map_cons] at hn
          have := (List.nodup_append.mp hn).2.2
          exact this (List.mem_map_of_mem _ hx) (by simp [hxa])
        have hnext : wc.sortedFrequencies.Next e = some e' := by
          unfold LinkedList.Next
          rw [hE, LinkedList.nextOf_append pre _ e hpre]
          rfl
        have hmem : e' ∈ wc.sortedFrequencies.elems := by simp [hE]
        have hlk := (hm.ofElem e' hmem).1
        have hE' : wc.sortedFrequencies.elems = (pre ++ [e]) ++ e' :: post := by
          simp [hE]
        have hlen' : (expand cnt (pre ++ [e])).length =
            (expand cnt pre).length + cnt e.Value := by
          rw [expand_append]
          simp [expand]
        simp only [medianLoop, hlt, if_true, hnext, hlk]
        refine ih (pre ++ [e]) e' fuel' _ hE' (by omega) ?_
        rw [hlen', hidx]
        push_cast
        omega
    · left
      by_cases hf : (e' :: post).length ≤ fuel
      · exact medianLoop_spec wc cnt hm k hk (e' :: post) pre e fuel idx hE hf hk1 hidx
      · have h1 := medianLoop_spec wc cnt hm k hk (e' :: post) pre e
          ((e' :: post).length) idx hE (le_refl _) hk1 hidx
        rw [medianLoop_done wc _ _ idx e hlt] at h1
        rw [medianLoop_done wc _ fuel idx e hlt]
        exact h1

theorem Inv.median_outcome {wc : wordCounter} (h : Inv wc) (fuel : Nat) :
    MedianFrequency fuel wc = .ok (bruteForceMedian wc.wordsHistogram) ∨
      MedianFrequency fuel wc = .error .fuel := by
  by_cases hfuel : wc.sortedFrequencies.elems.length ≤ fuel
  · exact Or.inl (h.median fuel hfuel)
  · have hnil : wc.sortedFrequencies.elems ≠ [] := by
      intro e
      rw [e] at hfuel
      simp at hfuel
    have hh : wc.wordsHistogram ≠ [] := fun e => hnil (h.elems_nil_iff.mpr e)
    obtain ⟨e, l, hel⟩ := List.exists_cons_of_ne_nil hnil
    have hmem : e ∈ wc.sortedFrequencies.elems := by simp [hel]
    have hlk := (h.markersOK.ofElem e hmem).1
    have hsort := sorted_counts_eq_expand _ _ _ h.markersOK
    have hlen := h.expand_length_eq
    have hpos : 0 < wc.wordsHistogram.length := List.length_pos.mpr hh
    have hlen0 : ¬ wc.sortedFrequencies.Len = 0 := by
      simp [LinkedList.Len, hel]
      omega
    have hdiv : Int.tdiv (mapLen wc.wordsHistogram) 2 =
        ((wc.wordsHistogram.length / 2 : Nat) : Int) := rfl
    simp only [MedianFrequency, hlen0, if_false, LowestFrequency_cons wc e l hel, hlk, hdiv]
    unfold bruteForceMedian
    rw [hsort]
    exact medianLoop_outcome wc _ h.markersOK _ (by rw [hlen]; omega) l [] e fuel _ hel
      (by simp [expand]) (by simp [expand])

/-- C18: in a reachable state that records at least one word, the batch sizes of all markers
add up to the number `n` of distinct words, which exceeds `medianIndex = n/2`; the list has
at most `n` elements and each holds a marker with a positive batch size whose position is
that element; so `MedianFrequency` returns a value for every bound of at least the length
of the list, and for a smaller bound it can only run out of iterations, never dereference
nil. -/
theorem C18_median_terminates (wc : wordCounter) (hr : Reachable wc)
    (hne : wc.wordsHistogram ≠ []) :
    (wc.markers.map (fun p => p.2.batchSize)).sum = mapLen wc.wordsHistogram ∧
    Int.tdiv (mapLen wc.wordsHistogram) 2 < mapLen wc.wordsHistogram ∧
    wc.sortedFrequencies.elems.length ≤ wc.wordsHistogram.length ∧
    (∃ v, (∀ fuel, wc.sortedFrequencies.elems.length ≤ fuel →
        MedianFrequency fuel wc = .ok v) ∧
      ∀ fuel, MedianFrequency fuel wc = .ok v ∨ MedianFrequency fuel wc = .error .fuel) ∧
    (∀ e ∈ wc.sortedFrequencies.elems, ∃ m, mapLookup wc.markers e.Value = some m ∧
      m.position = some e ∧ 1 ≤ m.batchSize) := by
  have h := hr.inv
  refine ⟨batchSize_sum h hr.markers_nodup, ?_, h.elems_length_le,
    ⟨bruteForceMedian wc.wordsHistogram, fun fuel hf => h.median fuel hf,
      fun fuel => h.median_outcome fuel⟩, ?_⟩
  · have hpos : 0 < wc.wordsHistogram.length := List.length_pos.mpr hne
    have hdiv : Int.tdiv (mapLen wc.wordsHistogram) 2 =
        ((wc.wordsHistogram.length / 2 : Nat) : Int) := rfl
    rw [hdiv]
    unfold mapLen
    have : wc.wordsHistogram.length / 2 < wc.wordsHistogram.length := by omega
    exact_mod_cast this
  · intro e he
    obtain ⟨h1, h2⟩ := h.markersOK.ofElem e he
    exact ⟨_, h1, rfl, by simp only; omega⟩

/-- C18 at a concrete input: after `a, b, b` the walk takes one step and returns 2. -/
theorem C18_median_terminates_witness :
    Reachable (stateAfter ["a", "b", "b"]) ∧
      (stateAfter ["a", "b", "b"]).wordsHistogram ≠ [] ∧
      ((stateAfter ["a", "b", "b"]).markers.map (fun p => p.2.batchSize)).sum =
        mapLen (stateAfter ["a", "b", "b"]).wordsHistogram ∧
      MedianFrequency 1 (stateAfter ["a", "b", "b"]) = .ok 2 ∧
      MedianFrequency 0 (stateAfter ["a", "b", "b"]) = .error .fuel :=
  ⟨stateAfter_reachable _, by decide,
    (C18_median_terminates (stateAfter ["a", "b", "b"]) (stateAfter_reachable _)
      (by decide)).1, rfl, rfl⟩

/-! ## The words handler -/

theorem splitComma_ne_nil (l : List Char) : splitComma l ≠ [] := by
  cases l with
  | nil => simp [splitComma]
  | cons c cs =>
    simp only [splitComma]
    split_ifs
    · simp
    · cases splitComma cs <;> simp

/-- No piece of a split contains a comma. -/
theorem splitComma_no_comma (l : List Char) : ∀ piece ∈ splitComma l, ',' ∉ piece := by
  induction l with
  | nil => simp [splitComma]
  | cons c cs ih =>
    intro piece hp
    simp only [splitComma] at hp
    split_ifs at hp with hc
    · rcases List.mem_cons.mp hp with hp | hp
      · rw [hp]
        simp
      · exact ih piece hp
    · cases hs : splitComma cs with
      | nil => exact absurd hs (splitComma_ne_nil cs)
      | cons h t =>
        rw [hs] at hp ih
        simp only at hp
        rcases List.mem_cons.mp hp with hp | hp
        · rw [hp]
          intro hm
          rcases List.mem_cons.mp hm with hm | hm
          · exact hc hm.symm
          · exact ih h (List.mem_cons_self _ _) hm
        · exact ih piece (List.mem_cons_of_mem _ hp)

/-- Joining the pieces of a split with commas gives the text back. -/
theorem splitComma_join (l : List Char) : List.intercalate [','] (splitComma l) = l := by
  induction l with
  | nil => simp [splitComma, List.intercalate]
  | cons c cs ih =>
    simp only [splitComma]
    cases hs : splitComma cs with
    | nil => exact absurd hs (splitComma_ne_nil cs)
    | cons h t =>
      rw [hs] at ih
      split_ifs with hc
      · subst hc
        simp only [List.intercalate, List.intersperse] at ih ⊢
        rw [List.flatten_cons, List.flatten_cons, ih]
        rfl
      · simp only
        cases t with
        | nil =>
          simp only [List.intercalate, List.intersperse] at ih ⊢
          rw [List.flatten_cons] at ih ⊢
          rw [List.cons_append, ih]
        | cons h2 t2 =>
          simp only [List.intercalate, List.intersperse] at ih ⊢
          rw [List.flatten_cons] at ih ⊢
          rw [List.cons_append, ih]

theorem CountWord_trim (wc : wordCounter) (w : String) :
    CountWord wc w = CountWord wc (TrimSpace w) := by
  unfold CountWord
  rw [TrimSpace_idempotent]

/-- Blank tokens can be dropped and the others trimmed without changing the result. -/
theorem countWords_trim (ws : List String) (wc : wordCounter) :
    countWords wc ws =
      countWords wc ((ws.map TrimSpace).filter (fun t => decide (t ≠ ""))) := by
  induction ws generalizing wc with
  | nil => rfl
  | cons w ws ih =>
    by_cases hw : TrimSpace w = ""
    · have hf : ((w :: ws).map TrimSpace).filter (fun t => decide (t ≠ "")) =
          (ws.map TrimSpace).filter (fun t => decide (t ≠ "")) := by
        simp [List.filter_cons, hw]
      rw [hf]
      simp only [countWords, CountWord_blank wc w hw]
      exact ih wc
    · have hf : ((w :: ws).map TrimSpace).filter (fun t => decide (t ≠ "")) =
          TrimSpace w :: (ws.map TrimSpace).filter (fun t => decide (t ≠ "")) := by
        simp [List.filter_cons, hw]
      rw [hf]
      simp only [countWords, ← CountWord_trim wc w]
      cases CountWord wc w with
      | error f => rfl
      | ok s => exact ih s

/-- C20: a POST with body `s` leaves the counter in the state reached by `CountWord` on
each element of `strings.Split(s, ",")` in order, and answers 200; on a reachable counter
this never faults and the new counter is reachable.  That state is also reached by the
trimmed non-blank tokens alone.  A request whose method is not POST leaves the counter as it
is and answers 405.  The pieces of the split contain no comma and join back to `s`. -/
theorem C20_wordsHandler (hs : HttpServer) (s : String) (hr : Reachable hs.counter) :
    (∃ c, countWords hs.counter (Split s) = .ok c ∧ Reachable c ∧
      wordsHandler hs ⟨"POST", some s⟩ =
        .ok (⟨c⟩, ⟨200, "Request processed successfully"⟩)) ∧
    countWords hs.counter (Split s) =
      countWords hs.counter (((Split s).map TrimSpace).filter (fun t => decide (t ≠ ""))) ∧
    (∀ (method : String) (body : Option String), method ≠ "POST" →
      wordsHandler hs ⟨method, body⟩ = .ok (hs, ⟨405, "Invalid request method\n"⟩)) ∧
    (∀ piece ∈ splitComma s.data, ',' ∉ piece) ∧
    List.intercalate [','] (splitComma s.data) = s.data := by
  refine ⟨?_, countWords_trim _ _, ?_, splitComma_no_comma _, splitComma_join _⟩
  · obtain ⟨c, hc, -⟩ := countWords_inv (Split s) hs.counter hr.inv
    obtain ⟨ws0, hws0⟩ := hr
    refine ⟨c, hc, ⟨ws0 ++ Split s, ?_⟩, ?_⟩
    · rw [countWords_append, hws0]
      exact hc
    · simp [wordsHandler, hc]
  · intro method body hm
    simp [wordsHandler, hm]

/-- C20 at a concrete input: the body `" ball, eggs ,,ball"` posted to a fresh server. -/
theorem C20_wordsHandler_witness :
    Reachable (HttpServer.mk New).counter ∧
      Split " ball, eggs ,,ball" = [" ball", " eggs ", "", "ball"] ∧
      ∃ c, countWords New (Split " ball, eggs ,,ball") = .ok c ∧
        wordsHandler ⟨New⟩ ⟨"POST", some " ball, eggs ,,ball"⟩ =
          .ok (⟨c⟩, ⟨200, "Request processed successfully"⟩) ∧
        c.wordsHistogram = [("ball", 2), ("eggs", 1)] :=
  ⟨⟨[], rfl⟩, by decide,
    (C20_wordsHandler ⟨New⟩ " ball, eggs ,,ball" ⟨[], rfl⟩).1.imp (fun c h =>
      ⟨h.1, h.2.2, by
        have h1 : countWords New (Split " ball, eggs ,,ball") =
            .ok (stateAfter (Split " ball, eggs ,,ball")) := stateAfter_spec _
        have h2 := h1.symm.trans h.1
        cases h2
        rfl⟩)⟩

end WordCounter
